import Mathlib

/-!
# skip-rm: glob translation and argument classification

A shallow embedding of `src/go/main.go`.

* A `String` stands for a Go string that is valid UTF-8, given by its code
  points; `[]rune(s)` is then `s.toList.toArray`. A Go string that need not be
  valid UTF-8 is a `List UInt8`, decoded by `runes` (section "Go strings as
  bytes"); `glob2regexBytes` is `glob2regex` on such a string.
* An index expression `pat[k]`, a store `pat[k] = v` and a slice `pat[lo:hi]`
  panic in Go when out of range; here they return `none`, and the enclosing
  function propagates the `none`.
* `strings.Builder` is modelled by the `String` written so far.
* Calls into the operating system and the Go library are fields of `Env`. Where
  a statement needs what the library does, `filepath.Join` and `filepath.Clean`
  are given by `filepathJoin` and `filepathClean`, and the parser behind
  `regexp.MustCompile` by `regexpVerdict`, each written from the documentation of
  the library.
-/

namespace SkipRm

/-! ## glob2regex -/

/-- The Go index expression `pat[k]`: `none` stands for the run-time panic. -/
def index (pat : Array Char) (k : Nat) : Option Char :=
  if h : k < pat.size then some (pat.get ⟨k, h⟩) else none

/-- The Go store `pat[k] = v`: `none` stands for the run-time panic. -/
def store (pat : Array Char) (k : Nat) (v : Char) : Option (Array Char) :=
  if h : k < pat.size then some (pat.set ⟨k, h⟩ v) else none

/-- The Go conversion `string(pat[lo:hi])`: `none` stands for the run-time
panic of a slice expression with `lo > hi` or `hi > len(pat)`. -/
def slice (pat : Array Char) (lo hi : Nat) : Option (List Char) :=
  if lo ≤ hi ∧ hi ≤ pat.size then some ((pat.toList.drop lo).take (hi - lo)) else none

/-- The call `strings.ReplaceAll(s, "\\", "\\\\")`: the one-character string
backslash has no overlapping occurrences, so every backslash is doubled. -/
def replaceAllBackslash : List Char → List Char
  | [] => []
  | c :: cs => (if c = '\\' then ['\\', '\\'] else [c]) ++ replaceAllBackslash cs

/-- The string literal tested by `strings.ContainsRune` in the default case
(the two braces are written as `\x7b` and `\x7d`). -/
def escapeSet : String := "/()[]\x7b\x7d?*+-|^$\\.&~# "

/-- The call `strings.ContainsRune(set, c)`. -/
def containsRune (set : String) (c : Char) : Bool := set.toList.contains c

/-- The inner loop `for j < n && pat[j] != ']' { j++ }`; returns the final `j`. -/
def scanClose (pat : Array Char) (n : Nat) (j : Nat) : Option Nat :=
  if j < n then
    match index pat j with
    | none => none
    | some c => if c ≠ ']' then scanClose pat n (j + 1) else some j
  else some j
termination_by n - j

theorem scanClose_ge (pat : Array Char) (n : Nat) (j r : Nat)
    (h : scanClose pat n j = some r) : j ≤ r := by
  generalize hk : n - j = k
  induction k using Nat.strongRecOn generalizing j r with
  | _ k ih =>
    rw [scanClose] at h
    split at h
    · split at h
      · exact absurd h (by simp)
      · split at h
        · have := ih (n - (j + 1)) (by omega) (j + 1) r h rfl
          omega
        · simp at h; omega
    · simp at h; omega

/-- The loop `for i, n := 0, len(pat); i < n; i++ { ... }` of `glob2regex`,
entered at index `i` with `ans` written so far; returns the final `ans`. -/
def loop (n : Nat) (pat : Array Char) (i : Nat) (ans : String) : Option String :=
  if i < n then
    match index pat i with
    | none => none
    | some c =>
      if c = '?' then
        loop n pat (i + 1) (ans ++ "[^/]")
      else if c = '*' then
        if i + 1 < n then
          match index pat (i + 1) with
          | none => none
          | some d =>
            if d = '*' then loop n pat (i + 1 + 1) (ans ++ ".*")
            else loop n pat (i + 1) (ans ++ "[^/]*")
        else loop n pat (i + 1) (ans ++ "[^/]*")
      else if c = '[' then
        match hj : scanClose pat n (i + 1) with
        | none => none
        | some j =>
          if j ≥ n then loop n pat (i + 1) (ans ++ "\\[")
          else
            match index pat (i + 1) with
            | none => none
            | some d =>
              match (if d = '!' then store pat (i + 1) '^' else some pat) with
              | none => none
              | some pat1 =>
                match slice pat1 (i + 1) j with
                | none => none
                | some body =>
                  loop n pat1 (j + 1)
                    (ans ++ ("[" ++ String.mk (replaceAllBackslash body) ++ "]"))
      else
        loop n pat (i + 1) ((if containsRune escapeSet c then ans.push '\\' else ans).push c)
  else some ans
termination_by n - i
decreasing_by
  all_goals simp_wf
  all_goals try omega
  have hge := scanClose_ge _ _ _ _ hj
  omega

/-- The function `glob2regex`: convert a glob pattern to a regex pattern. The
argument is the string given by its runes, so that `globpat.toList` is what the
conversion `[]rune(globpat)` yields; `glob2regexBytes` below takes the bytes of a
Go string, valid UTF-8 or not, and decodes them first. -/
def glob2regex (globpat : String) : Option String :=
  let pat := globpat.toList.toArray
  loop pat.size pat 0 ""

/-! ## Go strings as bytes

A Go string is a sequence of bytes that need not be valid UTF-8. The conversion
`[]rune(globpat)` decodes it: every byte that does not begin a well-formed UTF-8
sequence becomes the rune U+FFFD on its own. The string that the builder returns
is written rune by rune and string by string, so it is always valid UTF-8 and is
kept as a `String`. -/

/-- A continuation byte of UTF-8: `0x80` to `0xBF`. -/
def isCont (b : UInt8) : Bool := 0x80 ≤ b.toNat && b.toNat ≤ 0xBF

/-- The second byte that Go accepts after the first byte `x` of a sequence of
three or four bytes: the ranges that exclude overlong forms, surrogates and
values above U+10FFFF. -/
def acceptSecond (x : Nat) (b : UInt8) : Bool :=
  if x = 0xE0 then 0xA0 ≤ b.toNat && b.toNat ≤ 0xBF
  else if x = 0xED then 0x80 ≤ b.toNat && b.toNat ≤ 0x9F
  else if x = 0xF0 then 0x90 ≤ b.toNat && b.toNat ≤ 0xBF
  else if x = 0xF4 then 0x80 ≤ b.toNat && b.toNat ≤ 0x8F
  else isCont b

/-- The rune U+FFFD that Go puts for a byte that cannot be decoded. -/
def runeError : Char := Char.ofNat 0xFFFD

/-- The rune at the head of a Go string and the number of bytes it takes; a byte
that does not begin a well-formed sequence gives U+FFFD and takes one byte. -/
def decodeRune : List UInt8 → Char × Nat
  | [] => (runeError, 0)
  | b0 :: rest =>
    let x := b0.toNat
    if x < 0x80 then (Char.ofNat x, 1)
    else if 0xC2 ≤ x ∧ x ≤ 0xDF then
      match rest with
      | b1 :: _ =>
        if isCont b1 then (Char.ofNat ((x - 0xC0) * 64 + (b1.toNat - 0x80)), 2)
        else (runeError, 1)
      | [] => (runeError, 1)
    else if 0xE0 ≤ x ∧ x ≤ 0xEF then
      match rest with
      | b1 :: b2 :: _ =>
        if acceptSecond x b1 && isCont b2 then
          (Char.ofNat ((x - 0xE0) * 4096 + (b1.toNat - 0x80) * 64 + (b2.toNat - 0x80)), 3)
        else (runeError, 1)
      | _ => (runeError, 1)
    else if 0xF0 ≤ x ∧ x ≤ 0xF4 then
      match rest with
      | b1 :: b2 :: b3 :: _ =>
        if acceptSecond x b1 && isCont b2 && isCont b3 then
          (Char.ofNat ((x - 0xF0) * 262144 + (b1.toNat - 0x80) * 4096
            + (b2.toNat - 0x80) * 64 + (b3.toNat - 0x80)), 4)
        else (runeError, 1)
      | _ => (runeError, 1)
    else (runeError, 1)

/-- The conversion `[]rune(s)` with `skip` bytes of the current rune still to
pass over. -/
def runesFrom : Nat → List UInt8 → List Char
  | _, [] => []
  | 0, b :: bs => (decodeRune (b :: bs)).1 :: runesFrom ((decodeRune (b :: bs)).2 - 1) bs
  | skip + 1, _ :: bs => runesFrom skip bs

/-- The conversion `[]rune(s)` of a Go string given by its bytes. -/
def runes (s : List UInt8) : List Char := runesFrom 0 s

/-- The UTF-8 bytes that `WriteRune` writes for a rune. -/
def encodeRune (c : Char) : List UInt8 :=
  let v := c.toNat
  if v < 0x80 then [UInt8.ofNat v]
  else if v < 0x800 then [UInt8.ofNat (0xC0 + v / 64), UInt8.ofNat (0x80 + v % 64)]
  else if v < 0x10000 then
    [UInt8.ofNat (0xE0 + v / 4096), UInt8.ofNat (0x80 + v / 64 % 64),
      UInt8.ofNat (0x80 + v % 64)]
  else
    [UInt8.ofNat (0xF0 + v / 262144), UInt8.ofNat (0x80 + v / 4096 % 64),
      UInt8.ofNat (0x80 + v / 64 % 64), UInt8.ofNat (0x80 + v % 64)]

/-- The bytes of the Go string that holds the runes `l`. -/
def utf8 (l : List Char) : List UInt8 := l.flatMap encodeRune

/-- The function `glob2regex` on a Go string given by its bytes: the conversion
`[]rune(globpat)` and then the loop. -/
def glob2regexBytes (globpat : List UInt8) : Option String :=
  glob2regex (String.mk (runes globpat))

/-! ## Argument classification (`main`) -/

/-- The call `strings.HasPrefix(s, p)`. -/
def HasPrefix (s p : String) : Bool := p.toList.isPrefixOf s.toList

/-- The type `Matcher`: true iff the file name matches the pattern of the closure. -/
abbrev Matcher := String → Bool

/-- The closure `match` of `main`: true iff some matcher of the list is true on `fname`. -/
def matchAny (matchers : List Matcher) (fname : String) : Bool :=
  match matchers with
  | [] => false
  | matcher :: rest => if matcher fname then true else matchAny rest fname

/-- The variables of `main` that the argument loop reads and writes: the local
`ddash`, the slice `fnames` handed to the command, and the arguments for which
`skip` printed its `skipping ...` line, in the order printed. -/
structure Run where
  ddash : Bool
  fnames : List String
  skipped : List String
deriving DecidableEq, Repr

/-- The closure `proc`: `fnames = append(fnames, fname)`. -/
def proc (st : Run) (fname : String) : Run :=
  { st with fnames := st.fnames ++ [fname] }

/-- The closure `skip`: prints the line `skipping fname...`. -/
def skip (st : Run) (fname : String) : Run :=
  { st with skipped := st.skipped ++ [fname] }

/-- The body of the `for _, fname := range os.Args[1:]` loop of the `blacklist`
case, with `m` the closure `match`. -/
def blacklistBody (m : String → Bool) (st : Run) (fname : String) : Run :=
  if fname = "-" then
    if m fname then skip st fname else proc st fname
  else if fname = "--" then
    proc { st with ddash := true } fname
  else if HasPrefix fname "-" then
    if st.ddash && m fname then skip st fname else proc st fname
  else
    if m fname then skip st fname else proc st fname

/-- The body of the `for _, fname := range os.Args[1:]` loop of the `whitelist`
case, with `m` the closure `match`. -/
def whitelistBody (m : String → Bool) (st : Run) (fname : String) : Run :=
  if fname = "-" then
    if !m fname then skip st fname else proc st fname
  else if fname = "--" then
    proc { st with ddash := true } fname
  else if HasPrefix fname "-" then
    if st.ddash && !m fname then skip st fname else proc st fname
  else
    if !m fname then skip st fname else proc st fname

/-- The `blacklist` loop continued from the state `st` over the arguments left. -/
def blacklistLoop (m : String → Bool) (st : Run) (args : List String) : Run :=
  args.foldl (blacklistBody m) st

/-- The `whitelist` loop continued from the state `st` over the arguments left. -/
def whitelistLoop (m : String → Bool) (st : Run) (args : List String) : Run :=
  args.foldl (whitelistBody m) st

/-- The state in which either loop is entered: `ddash := false`, `fnames` empty,
nothing printed. -/
def start : Run := { ddash := false, fnames := [], skipped := [] }

/-- The state `st` with its two output lists emptied: the loop continued from it
produces only what the remaining arguments add. -/
def fresh (st : Run) : Run := { ddash := st.ddash, fnames := [], skipped := [] }

/-- The state reached from `st` with the outputs of `out` appended to those of `st`. -/
def after (st out : Run) : Run :=
  { ddash := out.ddash, fnames := st.fnames ++ out.fnames, skipped := st.skipped ++ out.skipped }

/-- The `blacklist` case of `main` on the arguments `os.Args[1:]`. -/
def blacklist (m : String → Bool) (args : List String) : Run :=
  blacklistLoop m start args

/-- The `whitelist` case of `main` on the arguments `os.Args[1:]`. -/
def whitelist (m : String → Bool) (args : List String) : Run :=
  whitelistLoop m start args

/-! ## Configuration and matcher construction -/

/-- The decoded json config `conf`. -/
structure Conf where
  command : String
  matcher : String
  mode : String
  blacklist : String
  whitelist : String

/-- What the program takes from the operating system and from the Go library;
none of it is code of `main.go`. -/
structure Env where
  -- `os.UserHomeDir()`; `none` stands for its error
  home : Option String
  -- `filepath.Join(a, b)`
  join : String → String → String
  -- `filepath.Abs(fname)`, taken to succeed
  abs : String → String
  -- `regexp.MustCompile(p)` followed by `re.MatchString`; `none` stands for the panic
  compile : String → Option (String → Bool)
  -- `os.Open(path)` and the lines that `bufio.Scanner` yields; `none` stands for the error
  lines : String → Option (List String)

/-- The elements of a path between its slashes; a leading, a trailing and a
doubled slash each give an empty element. -/
def splitSlash : List Char → List (List Char)
  | [] => [[]]
  | c :: cs =>
    if c = '/' then [] :: splitSlash cs
    else
      match splitSlash cs with
      | [] => [[c]]
      | e :: es => (c :: e) :: es

/-- The elements joined again, one slash between two neighbours. -/
def joinSlash : List (List Char) → List Char
  | [] => []
  | [e] => e
  | e :: es => e ++ '/' :: joinSlash es

/-- One element in the loop of `filepath.Clean`; `kept` holds the elements
written so far, the last one first. An empty element and `.` are dropped; `..`
removes the last element written, is dropped at the root, and is written when the
path is not rooted and nothing but `..` was written; any other element is
written. -/
def cleanStep (rooted : Bool) (kept : List (List Char)) (e : List Char) : List (List Char) :=
  if e = [] ∨ e = ['.'] then kept
  else if e = ['.', '.'] then
    match kept with
    | top :: below => if top = ['.', '.'] then e :: kept else below
    | [] => if rooted then [] else [e]
  else e :: kept

/-- The Go library function `filepath.Clean` for Unix paths; it is not code of
`main.go` and is written here from the rules of its documentation: the empty path
gives `.`, several slashes count as one, `.` elements go, an inner `..` goes with
the element before it, a `..` at the root goes, and the result ends in a slash
only when it is the root. -/
def filepathClean (path : String) : String :=
  if path = "" then "."
  else
    let rooted : Bool := path.toList.head? == some '/'
    let kept := ((splitSlash path.toList).foldl (cleanStep rooted) []).reverse
    let out := (if rooted then ['/'] else []) ++ joinSlash kept
    if out = [] then "." else String.mk out

/-- The Go library function `filepath.Join` of two elements on Unix; it is not
code of `main.go` and is written here from its documentation: empty elements are
ignored, the others are joined by a slash and the result is cleaned; when both are
empty the result is empty. -/
def filepathJoin (a b : String) : String :=
  if a ≠ "" then filepathClean (a ++ "/" ++ b)
  else if b ≠ "" then filepathClean b
  else ""

/-- A path element that `filepath.Clean` leaves alone: not empty, without a
slash, and neither `.` nor `..`. -/
def isName (e : List Char) : Bool :=
  e != [] && !e.contains '/' && e != ['.'] && e != ['.', '.']

/-- The call `strings.HasSuffix(s, t)`. -/
def HasSuffix (s t : String) : Bool := t.toList.isSuffixOf s.toList

/-- The function `expanduser`: expand tilde in path. A call of `log.Fatal` is
modelled by `Except.error`. -/
def expanduser (env : Env) (path : String) : Except String String :=
  if path = "~" then
    match env.home with
    | none => Except.error "UserHomeDir"
    | some home => Except.ok home
  else if HasPrefix path "~/" then
    match env.home with
    | none => Except.error "UserHomeDir"
    | some home => Except.ok (env.join home (String.mk (path.toList.drop 2)))
  else Except.ok path

/-- The function `makeMatcher`: make a matcher for the pattern, read with the
config option `matcher`. A call of `log.Fatal` and a panic are modelled by
`Except.error`. -/
def makeMatcher (env : Env) (conf : Conf) (pattern : String) : Except String Matcher :=
  if conf.matcher = "string" then
    Except.ok (fun fname => env.abs fname == pattern)
  else if conf.matcher = "glob" then
    match expanduser env pattern with
    | Except.error e => Except.error e
    | Except.ok p =>
      match glob2regex p with
      | none => Except.error "index out of range"
      | some r =>
        match env.compile ("^" ++ r ++ "$") with
        | none => Except.error "regexp: Compile"
        | some re => Except.ok (fun fname => re (env.abs fname))
  else if conf.matcher = "regex" then
    match env.compile ("^" ++ pattern ++ "$") with
    | none => Except.error "regexp: Compile"
    | some re => Except.ok (fun fname => re (env.abs fname))
  else Except.error conf.matcher

/-- The loop `for scan.Scan() { matchers = append(matchers, makeMatcher(scan.Text())) }`
of `makeMatchers` over the lines left, with `matchers` built so far. -/
def scanLoop (env : Env) (conf : Conf) : List String → List Matcher →
    Except String (List Matcher)
  | [], matchers => Except.ok matchers
  | text :: rest, matchers =>
    match makeMatcher env conf text with
    | Except.error e => Except.error e
    | Except.ok mt => scanLoop env conf rest (matchers ++ [mt])

/-- The function `makeMatchers`: make matchers for all patterns in the list file. -/
def makeMatchers (env : Env) (conf : Conf) (list : String) : Except String (List Matcher) :=
  match expanduser env list with
  | Except.error e => Except.error e
  | Except.ok path =>
    match env.lines path with
    | none => Except.error "open"
    | some ls => scanLoop env conf ls []

/-- The function `main` from the decoded config up to the list `fnames` handed to
the command: `readConfig` and the run of the command are left out. -/
def main (env : Env) (conf : Conf) (args : List String) : Except String Run :=
  if conf.mode = "blacklist" then
    match makeMatchers env conf conf.blacklist with
    | Except.error e => Except.error e
    | Except.ok matchers => Except.ok (blacklist (matchAny matchers) args)
  else if conf.mode = "whitelist" then
    match makeMatchers env conf conf.whitelist with
    | Except.error e => Except.error e
    | Except.ok matchers => Except.ok (whitelist (matchAny matchers) args)
  else Except.error conf.mode

/-! ## The Go library `regexp`, as far as a translated glob needs it

`regexp.MustCompile` is not code of `main.go`. Its parser is written here from the
documented regular-expression language of Go, for literal characters, escaped
punctuation, `.`, `*`, `^`, `$` and bracket classes of plain characters and
ranges. Whatever else a pattern holds is reported as not modelled. -/

/-- The reading of an escaped fragment: scanning left to right, a backslash is
dropped and the character after it is kept as it is; `none` when a backslash is
the last character. -/
def unescape : List Char → Option (List Char)
  | [] => some []
  | c :: cs =>
    if c = '\\' then
      match cs with
      | [] => none
      | d :: ds => (unescape ds).map (fun r => d :: r)
    else (unescape cs).map (fun r => c :: r)

/-- The arguments whose entry in `mask` is `true`, in input order. -/
def forwardedBy (mask : List Bool) (args : List String) : List String :=
  ((args.zip mask).filter (fun p => p.2)).map (fun p => p.1)

/-- The arguments whose entry in `mask` is `false`, in input order. -/
def skippedBy (mask : List Bool) (args : List String) : List String :=
  ((args.zip mask).filter (fun p => !p.2)).map (fun p => p.1)

/-- A flag-like token: it begins with `-` and is not the single dash. -/
def isFlag (a : String) : Bool := a != "-" && HasPrefix a "-"

/-- The arguments that stand before the first `--`. -/
def beforeSeparator (args : List String) : List String :=
  args.takeWhile (fun a => a != "--")

/-- The arguments from the first `--` on, that token included. -/
def fromSeparator (args : List String) : List String :=
  args.dropWhile (fun a => a != "--")

/-! ## A list-level reading of the translation loop -/

/-- What the default case writes for the rune `c`. -/
def escapeRune (c : Char) : List Char :=
  if containsRune escapeSet c then ['\\', c] else [c]

/-- The punctuation marks that the specification lists as escaped outside
brackets, without `[`, `?` and `*`, which the loop handles before the default case. -/
def escapedMarks : String := "/()]\x7b\x7d+-|^$\\.&~#"

/-- The per-character image of the specification for a glob without `*` and `[`:
`?` becomes `[^/]`, an escaped mark or a space gets a backslash in front, every
other character is kept. -/
def charImage (c : Char) : List Char :=
  if c = '?' then "[^/]".toList
  else if c ∈ escapedMarks.toList ∨ c = ' ' then ['\\', c]
  else [c]

/-- The number of characters that one step of the scan of the specification
takes from the head of what is left of the glob: two for `**`, the whole bracket
expression for a `[` whose `]` is found, one otherwise. -/
def itemLength : List Char → Nat
  | [] => 0
  | c :: cs =>
    if c = '*' then (if cs.head? = some '*' then 2 else 1)
    else if c = '[' then
      (if ']' ∈ cs then (cs.takeWhile (· ≠ ']')).length + 2 else 1)
    else 1

/-- One mark per position of the glob: `true` where a step of the scan of the
specification starts, `false` for the positions a step passes over (the second
`*` of `**`, and the body and the `]` of a bracket expression); `skip` counts the
positions still to pass over. -/
def scanStops : Nat → List Char → List Bool
  | _, [] => []
  | 0, c :: cs => true :: scanStops (itemLength (c :: cs) - 1) cs
  | skip + 1, _ :: cs => false :: scanStops skip cs

/-- Whether a step of the scan starts at position `i` of the glob `g`; for a
character other than `*` and `]` this says that it stands outside every bracket
expression. -/
def scannedAt (g : List Char) (i : Nat) : Bool := (scanStops 0 g).getD i false

/-- A bracket body with every backslash written twice and every other character
written once, as the specification words it. -/
def doubleBackslashes (body : List Char) : List Char :=
  body.flatMap (fun c => if c = '\\' then "\\\\".toList else [c])

/-- A bracket body with a leading `!` replaced by `^`. -/
def negateLead : List Char → List Char
  | [] => []
  | c :: cs => (if c = '!' then '^' else c) :: cs

theorem length_dropWhile_le (p : Char → Bool) (l : List Char) :
    (l.dropWhile p).length ≤ l.length := by
  induction l with
  | nil => simp
  | cons a l ih =>
    rw [List.dropWhile_cons]
    split
    · simp only [List.length_cons]; omega
    · exact Nat.le_refl _

/-- The output of the loop as a function of the runes still to be read. -/
def translateRunes : List Char → List Char
  | [] => []
  | c :: cs =>
    if c = '?' then "[^/]".toList ++ translateRunes cs
    else if c = '*' then
      match cs with
      | [] => "[^/]*".toList
      | d :: ds =>
        if d = '*' then ".*".toList ++ translateRunes ds
        else "[^/]*".toList ++ translateRunes (d :: ds)
    else if c = '[' then
      if ']' ∈ cs then
        '[' :: replaceAllBackslash (negateLead (cs.takeWhile (· ≠ ']')))
          ++ ']' :: translateRunes ((cs.dropWhile (· ≠ ']')).tail)
      else '\\' :: '[' :: translateRunes cs
    else escapeRune c ++ translateRunes cs
termination_by l => l.length
decreasing_by
  all_goals simp_wf
  all_goals try omega
  have hle := length_dropWhile_le (fun x => !decide (x = ']')) cs
  omega

theorem translateRunes_nil : translateRunes [] = [] := by
  rw [translateRunes.eq_def]

theorem translateRunes_cons (c : Char) (cs : List Char) :
    translateRunes (c :: cs) =
      if c = '?' then "[^/]".toList ++ translateRunes cs
      else if c = '*' then
        match cs with
        | [] => "[^/]*".toList
        | d :: ds =>
          if d = '*' then ".*".toList ++ translateRunes ds
          else "[^/]*".toList ++ translateRunes (d :: ds)
      else if c = '[' then
        if ']' ∈ cs then
          '[' :: replaceAllBackslash (negateLead (cs.takeWhile (· ≠ ']')))
            ++ ']' :: translateRunes ((cs.dropWhile (· ≠ ']')).tail)
        else '\\' :: '[' :: translateRunes cs
      else escapeRune c ++ translateRunes cs := by
  conv_lhs => rw [translateRunes.eq_def]

theorem index_eq_getElem? (pat : Array Char) (k : Nat) : index pat k = pat.toList[k]? := by
  unfold index
  split
  · rename_i h
    simp [List.getElem?_eq_getElem, h]
  · rename_i h
    simp at h
    simp [List.getElem?_eq_none, h]

theorem index_append (pat : Array Char) (pre : List Char) (c : Char) (cs : List Char)
    (h : pat.toList = pre ++ c :: cs) : index pat pre.length = some c := by
  rw [index_eq_getElem?, h, List.getElem?_append_right (Nat.le_refl _)]
  simp

theorem scanClose_eq (suf : List Char) : ∀ (pat : Array Char) (pre : List Char),
    pat.toList = pre ++ suf →
    scanClose pat pat.size pre.length
      = some (pre.length + (suf.takeWhile (· ≠ ']')).length) := by
  induction suf with
  | nil =>
    intro pat pre h
    have hs : pat.size = pre.length := by
      have := congrArg List.length h
      simpa using this
    rw [scanClose]
    simp [hs]
  | cons c cs ih =>
    intro pat pre h
    have hs : pat.size = pre.length + (cs.length + 1) := by
      have := congrArg List.length h
      simpa using this
    rw [scanClose, index_append pat pre c cs h]
    have hlt : pre.length < pat.size := by omega
    simp only [hlt, if_true]
    by_cases hc : c = ']'
    · simp [hc]
    · have h2 : pat.toList = (pre ++ [c]) ++ cs := by simp [h]
      have := ih pat (pre ++ [c]) h2
      simp only [List.length_append, List.length_singleton] at this
      simp [hc, this]
      omega

theorem takeWhile_of_not_mem (cs : List Char) (h : ']' ∉ cs) :
    cs.takeWhile (· ≠ ']') = cs := by
  induction cs with
  | nil => rfl
  | cons a l ih =>
    have ha : a ≠ ']' := fun e => h (by simp [e])
    have hl : ']' ∉ l := fun e => h (by simp [e])
    rw [List.takeWhile_cons, ih hl]
    simp [ha]

theorem split_close (cs : List Char) (h : ']' ∈ cs) :
    cs = cs.takeWhile (· ≠ ']') ++ ']' :: (cs.dropWhile (· ≠ ']')).tail := by
  induction cs with
  | nil => simp at h
  | cons a l ih =>
    by_cases ha : a = ']'
    · simp [List.takeWhile_cons, List.dropWhile_cons, ha]
    · have hl : ']' ∈ l := by
        rcases List.mem_cons.mp h with e | e
        · exact absurd e.symm ha
        · exact e
      have := ih hl
      simp only [List.takeWhile_cons, List.dropWhile_cons, ha, ne_eq, not_false_eq_true,
        decide_True, if_true, List.cons_append]
      exact congrArg (List.cons a) this

theorem length_takeWhile_lt (cs : List Char) (h : ']' ∈ cs) :
    (cs.takeWhile (· ≠ ']')).length < cs.length := by
  have h1 := congrArg List.length (split_close cs h)
  simp only [List.length_append, List.length_cons] at h1
  omega

theorem length_negateLead (b : List Char) : (negateLead b).length = b.length := by
  cases b <;> simp [negateLead]

theorem negate_store (pat : Array Char) (pre : List Char) (c : Char) (body rest : List Char)
    (h : pat.toList = pre ++ c :: (body ++ ']' :: rest)) :
    ∃ d, index pat (pre.length + 1) = some d ∧
      ∃ pat1, (if d = '!' then store pat (pre.length + 1) '^' else some pat) = some pat1 ∧
        pat1.toList = pre ++ c :: (negateLead body ++ ']' :: rest) := by
  have h1 : pat.toList = (pre ++ [c]) ++ (body ++ ']' :: rest) := by simp [h]
  cases body with
  | nil =>
    refine ⟨']', ?_, pat, ?_, ?_⟩
    · have := index_append pat (pre ++ [c]) ']' rest (by simpa using h1)
      simpa using this
    · simp
    · simpa [negateLead] using h
  | cons b bs =>
    have hi : index pat (pre.length + 1) = some b := by
      have := index_append pat (pre ++ [c]) b (bs ++ ']' :: rest) (by simpa using h1)
      simpa using this
    have hs : pat.size = pre.length + (1 + (bs.length + 1 + (rest.length + 1))) := by
      have := congrArg List.length h
      simp at this
      omega
    refine ⟨b, hi, ?_⟩
    by_cases hb : b = '!'
    · have hlt : pre.length + 1 < pat.size := by omega
      refine ⟨pat.set ⟨pre.length + 1, hlt⟩ '^', ?_, ?_⟩
      · simp [hb, store, hlt]
      · simp only [Array.toList_set]
        rw [h1]
        simp [negateLead, hb, List.set_append]
    · refine ⟨pat, by simp [hb], ?_⟩
      simpa [negateLead, hb] using h

theorem slice_eq (pat : Array Char) (pre mid rest : List Char)
    (h : pat.toList = pre ++ (mid ++ rest)) :
    slice pat pre.length (pre.length + mid.length) = some mid := by
  have hs : pat.size = pre.length + (mid.length + rest.length) := by
    have := congrArg List.length h
    simpa using this
  unfold slice
  rw [if_pos ⟨by omega, by omega⟩, h]
  simp

theorem loop_nil (n : Nat) (pat : Array Char) (i : Nat) (ans : String) (h : n ≤ i) :
    loop n pat i ans = some ans := by
  rw [loop]
  simp [Nat.not_lt.mpr h]

theorem loop_eq (k : Nat) : ∀ (suf : List Char), suf.length ≤ k →
    ∀ (pat : Array Char) (pre : List Char) (ans : String), pat.toList = pre ++ suf →
    loop pat.size pat pre.length ans = some (ans ++ String.mk (translateRunes suf)) := by
  induction k with
  | zero =>
    intro suf hk pat pre ans h
    have : suf = [] := List.eq_nil_of_length_eq_zero (by omega)
    subst this
    have hs : pat.size = pre.length := by
      have := congrArg List.length h
      simpa using this
    rw [loop_nil _ _ _ _ (by omega), translateRunes_nil]
    congr 1
    apply String.ext
    simp
  | succ k ih =>
    intro suf hk pat pre ans h
    cases suf with
    | nil =>
      have hs : pat.size = pre.length := by
        have := congrArg List.length h
        simpa using this
      rw [loop_nil _ _ _ _ (by omega), translateRunes_nil]
      congr 1
      apply String.ext
      simp
    | cons c cs =>
      have hs : pat.size = pre.length + (cs.length + 1) := by
        have := congrArg List.length h
        simpa using this
      have hlt : pre.length < pat.size := by omega
      have hcs : cs.length ≤ k := by simpa using hk
      have h1 : pat.toList = (pre ++ [c]) ++ cs := by simp [h]
      have ih1 := fun ans => ih cs hcs pat (pre ++ [c]) ans h1
      simp only [List.length_append, List.length_singleton] at ih1
      rw [loop, index_append pat pre c cs h, translateRunes_cons]
      simp only [hlt, if_true]
      by_cases hq : c = '?'
      · simp only [hq, if_true]
        rw [ih1]
        congr 1
        apply String.ext
        simp [String.data_append]
      · simp only [hq, if_false]
        by_cases hstar : c = '*'
        · simp only [hstar, if_true]
          cases cs with
          | nil =>
            have hn : ¬ (pre.length + 1 < pat.size) := by simp at hs; omega
            simp only [hn, if_false]
            rw [ih1, translateRunes_nil]
            congr 1
            apply String.ext
            simp [String.data_append]
          | cons d ds =>
            have hn : pre.length + 1 < pat.size := by simp at hs; omega
            have hd : index pat (pre.length + 1) = some d := by
              have := index_append pat (pre ++ [c]) d ds h1
              simpa using this
            simp only [hn, if_true, hd]
            by_cases hd2 : d = '*'
            · simp only [hd2, if_true]
              have h2 : pat.toList = (pre ++ [c, d]) ++ ds := by simp [h]
              have ih2 := ih ds (by simp at hcs; omega) pat (pre ++ [c, d]) (ans ++ ".*") h2
              simp only [List.length_append, List.length_cons, List.length_nil] at ih2
              rw [ih2]
              congr 1
              apply String.ext
              simp [String.data_append]
            · simp only [hd2, if_false]
              rw [ih1]
              congr 1
              apply String.ext
              simp [String.data_append]
        · simp only [hstar, if_false]
          by_cases hb : c = '['
          · simp only [hb, if_true]
            have hsc := scanClose_eq cs pat (pre ++ [c]) h1
            simp only [List.length_append, List.length_singleton] at hsc
            split
            · rename_i hj
              rw [hsc] at hj
              exact absurd hj (by simp)
            · rename_i j hj
              rw [hsc] at hj
              have hj2 : j = pre.length + 1 + (cs.takeWhile (· ≠ ']')).length :=
                (Option.some.inj hj).symm
              by_cases hmem : ']' ∈ cs
              · have hlen := length_takeWhile_lt cs hmem
                have hjn : ¬ (j ≥ pat.size) := by omega
                simp only [hjn, if_false, hmem, if_true]
                have hsplit := split_close cs hmem
                generalize hbody : cs.takeWhile (· ≠ ']') = body at hsplit hj2 hlen
                generalize hrest : (cs.dropWhile (· ≠ ']')).tail = rest at hsplit
                have h3 : pat.toList = pre ++ c :: (body ++ ']' :: rest) := by
                  rw [h, hsplit]
                obtain ⟨d, hd, pat1, hst, hp1⟩ := negate_store pat pre c body rest h3
                have hsz : pat1.size = pat.size := by
                  have e1 := congrArg List.length hp1
                  have e2 := congrArg List.length h3
                  simp [length_negateLead] at e1 e2
                  omega
                have hsl : slice pat1 (pre.length + 1) j = some (negateLead body) := by
                  have := slice_eq pat1 (pre ++ [c]) (negateLead body) (']' :: rest)
                    (by simp [hp1])
                  simp only [List.length_append, List.length_singleton,
                    length_negateLead] at this
                  rw [hj2]
                  exact this
                simp only [hd, hst, hsl]
                have h4 : pat1.toList = (pre ++ c :: (negateLead body ++ [']'])) ++ rest := by
                  simp [hp1]
                have hrl : rest.length ≤ k := by
                  have := congrArg List.length hsplit
                  simp at this
                  omega
                have ih3 := fun ans => ih rest hrl pat1 _ ans h4
                simp only [List.length_append, List.length_cons, List.length_nil,
                  length_negateLead, hsz] at ih3
                have hidx : j + 1 = pre.length + (body.length + 1 + 1) := by omega
                rw [hidx, ih3]
                congr 1
                apply String.ext
                simp [String.data_append]
              · have hall := takeWhile_of_not_mem cs hmem
                rw [hall] at hj2
                have hjn : j ≥ pat.size := by omega
                simp only [hjn, if_true, hmem, if_false]
                rw [ih1]
                congr 1
                apply String.ext
                simp [String.data_append]
          · simp only [hb, if_false]
            rw [ih1]
            congr 1
            apply String.ext
            by_cases he : containsRune escapeSet c = true
            · simp [String.data_append, escapeRune, he]
            · simp [String.data_append, escapeRune, he]

theorem mk_append (a b : List Char) : String.mk (a ++ b) = String.mk a ++ String.mk b := by
  apply String.ext
  simp [String.data_append]

theorem glob2regex_eq (g : String) :
    glob2regex g = some (String.mk (translateRunes g.toList)) := by
  unfold glob2regex
  have := loop_eq g.toList.length g.toList (Nat.le_refl _) g.toList.toArray [] "" (by simp)
  simp only [List.length_nil] at this
  rw [this]
  congr 1

theorem glob2regex_append_stars (s : String) :
    glob2regex ("**" ++ s) = some (".*" ++ String.mk (translateRunes s.toList)) := by
  have h : ("**" ++ s).toList = '*' :: '*' :: s.toList := rfl
  rw [glob2regex_eq, h, translateRunes_cons]
  simp only [Char.reduceEq, if_false, if_true, Option.some.injEq]
  apply String.ext
  simp [String.data_append]

theorem glob2regex_append_star (s : String) (h : HasPrefix s "*" = false) :
    glob2regex ("*" ++ s) = some ("[^/]*" ++ String.mk (translateRunes s.toList)) := by
  have h1 : ("*" ++ s).toList = '*' :: s.toList := rfl
  rw [glob2regex_eq, h1, translateRunes_cons]
  cases hs : s.toList with
  | nil => simp [translateRunes_nil]
  | cons d ds =>
    have hd : d ≠ '*' := by
      intro e
      have h2 : HasPrefix s "*" = true := by
        unfold HasPrefix
        rw [hs, e]
        simp [List.isPrefixOf]
      rw [h] at h2
      exact Bool.noConfusion h2
    simp only [Char.reduceEq, if_false, if_true, Option.some.injEq, hd]
    apply String.ext
    simp [String.data_append]

theorem escapeRune_eq_charImage (c : Char) (h1 : c ≠ '?') (h2 : c ≠ '*') (h3 : c ≠ '[') :
    escapeRune c = charImage c := by
  unfold escapeRune charImage containsRune
  have hl : escapeSet.toList = '/' :: '(' :: ')' :: '[' :: ']' :: '\x7b' :: '\x7d' :: '?' :: '*'
      :: '+' :: '-' :: '|' :: '^' :: '$' :: '\\' :: '.' :: '&' :: '~' :: '#' :: ' ' :: [] := rfl
  have hr : escapedMarks.toList = '/' :: '(' :: ')' :: ']' :: '\x7b' :: '\x7d'
      :: '+' :: '-' :: '|' :: '^' :: '$' :: '\\' :: '.' :: '&' :: '~' :: '#' :: [] := rfl
  rw [hl, hr]
  simp only [List.contains_eq_any_beq, List.any_cons, List.any_nil, List.mem_cons,
    List.mem_singleton, List.not_mem_nil, Bool.or_eq_true, beq_iff_eq, Bool.or_false,
    or_false, h1, h2, h3, if_false, false_or]
  by_cases hc : (c = '/' ∨ c = '(' ∨ c = ')' ∨ c = ']' ∨ c = '\x7b' ∨ c = '\x7d' ∨ c = '+'
      ∨ c = '-' ∨ c = '|' ∨ c = '^' ∨ c = '$' ∨ c = '\\' ∨ c = '.' ∨ c = '&' ∨ c = '~'
      ∨ c = '#') ∨ c = ' '
  · rw [if_pos hc, if_pos (by tauto)]
  · rw [if_neg hc, if_neg (by tauto)]

theorem translateRunes_plain (l : List Char) (h1 : '*' ∉ l) (h2 : '[' ∉ l) :
    translateRunes l = l.flatMap charImage := by
  induction l with
  | nil => simp [translateRunes_nil]
  | cons c cs ih =>
    have hc1 : c ≠ '*' := fun e => h1 (by simp [e])
    have hc2 : c ≠ '[' := fun e => h2 (by simp [e])
    have ih1 := ih (fun e => h1 (by simp [e])) (fun e => h2 (by simp [e]))
    rw [translateRunes_cons, List.flatMap_cons, ih1]
    by_cases hq : c = '?'
    · simp [hq, charImage]
    · simp only [hq, hc1, hc2, if_false]
      rw [escapeRune_eq_charImage c hq hc1 hc2]

theorem negateLead_of_head (body : List Char) (h : body.head? ≠ some '!') :
    negateLead body = body := by
  cases body with
  | nil => rfl
  | cons c cs =>
    have hc : c ≠ '!' := fun e => h (by simp [e])
    simp [negateLead, hc]

theorem replaceAllBackslash_of_not_mem (body : List Char) (h : '\\' ∉ body) :
    replaceAllBackslash body = body := by
  induction body with
  | nil => rfl
  | cons c cs ih =>
    have hc : c ≠ '\\' := fun e => h (by simp [e])
    have hcs : '\\' ∉ cs := fun e => h (by simp [e])
    simp [replaceAllBackslash, hc, ih hcs]

theorem replaceAllBackslash_eq_doubleBackslashes (body : List Char) :
    replaceAllBackslash body = doubleBackslashes body := by
  induction body with
  | nil => rfl
  | cons c cs ih =>
    rw [replaceAllBackslash, ih]
    by_cases hc : c = '\\'
    · subst hc
      rfl
    · simp [doubleBackslashes, hc]

theorem doubleBackslashes_of_not_mem (body : List Char) (h : '\\' ∉ body) :
    doubleBackslashes body = body := by
  rw [← replaceAllBackslash_eq_doubleBackslashes, replaceAllBackslash_of_not_mem body h]

theorem takeWhile_body (body rest : List Char) (h : ']' ∉ body) :
    (body ++ ']' :: rest).takeWhile (· ≠ ']') = body := by
  induction body with
  | nil => simp [List.takeWhile_cons]
  | cons a l ih =>
    have ha : a ≠ ']' := fun e => h (by simp [e])
    have hl : ']' ∉ l := fun e => h (by simp [e])
    rw [List.cons_append, List.takeWhile_cons, ih hl]
    simp [ha]

theorem dropWhile_body (body rest : List Char) (h : ']' ∉ body) :
    (body ++ ']' :: rest).dropWhile (· ≠ ']') = ']' :: rest := by
  induction body with
  | nil => simp [List.dropWhile_cons]
  | cons a l ih =>
    have ha : a ≠ ']' := fun e => h (by simp [e])
    have hl : ']' ∉ l := fun e => h (by simp [e])
    rw [List.cons_append, List.dropWhile_cons, ih hl]
    simp [ha]

theorem translateRunes_bracket (body rest : List Char) (h : ']' ∉ body) :
    translateRunes ('[' :: (body ++ ']' :: rest))
      = '[' :: (replaceAllBackslash (negateLead body) ++ ']' :: translateRunes rest) := by
  rw [translateRunes_cons, takeWhile_body body rest h, dropWhile_body body rest h]
  have hm : ']' ∈ body ++ ']' :: rest := by simp
  simp only [Char.reduceEq, if_false, if_true, hm, List.tail_cons, List.cons_append]

theorem translateRunes_open (cs : List Char) (h : ']' ∉ cs) :
    translateRunes ('[' :: cs) = '\\' :: '[' :: translateRunes cs := by
  rw [translateRunes_cons]
  simp only [Char.reduceEq, if_false, if_true, h]

theorem glob2regex_bracket (body rest : String) (h : ']' ∉ body.toList) :
    glob2regex ("[" ++ body ++ "]" ++ rest)
      = some ("[" ++ String.mk (replaceAllBackslash (negateLead body.toList)) ++ "]"
          ++ String.mk (translateRunes rest.toList)) := by
  have h1 : ("[" ++ body ++ "]" ++ rest).toList = '[' :: (body.toList ++ ']' :: rest.toList) := by
    simp [String.toList, String.data_append]
  rw [glob2regex_eq, h1, translateRunes_bracket _ _ h]
  congr 1
  apply String.ext
  simp [String.data_append]

theorem translateRunes_default (c : Char) (cs : List Char)
    (h1 : c ≠ '?') (h2 : c ≠ '*') (h3 : c ≠ '[') :
    translateRunes (c :: cs) = escapeRune c ++ translateRunes cs := by
  rw [translateRunes_cons]
  simp only [h1, h2, h3, if_false]

theorem translateRunes_plain_append (pre rest : List Char) (h1 : '*' ∉ pre) (h2 : '[' ∉ pre) :
    translateRunes (pre ++ rest) = pre.flatMap charImage ++ translateRunes rest := by
  induction pre with
  | nil => simp
  | cons c cs ih =>
    have hc1 : c ≠ '*' := fun e => h1 (by simp [e])
    have hc2 : c ≠ '[' := fun e => h2 (by simp [e])
    have ih1 := ih (fun e => h1 (by simp [e])) (fun e => h2 (by simp [e]))
    rw [List.cons_append, translateRunes_cons, List.flatMap_cons, ih1]
    by_cases hq : c = '?'
    · simp [hq, charImage]
    · simp only [hq, hc1, hc2, if_false]
      rw [escapeRune_eq_charImage c hq hc1 hc2, List.append_assoc]

theorem escapeRune_space : escapeRune ' ' = ['\\', ' '] := by
  simp [escapeRune, containsRune, escapeSet]

theorem escapeRune_tab : escapeRune '\t' = ['\t'] := by
  simp [escapeRune, containsRune, escapeSet]

theorem escapeRune_newline : escapeRune '\n' = ['\n'] := by
  simp [escapeRune, containsRune, escapeSet]

theorem escapeRune_return : escapeRune '\r' = ['\r'] := by
  simp [escapeRune, containsRune, escapeSet]

theorem glob2regex_at (pre post : String) (c : Char) (h1 : '*' ∉ pre.toList)
    (h2 : '[' ∉ pre.toList) (hc1 : c ≠ '?') (hc2 : c ≠ '*') (hc3 : c ≠ '[') :
    glob2regex (pre ++ String.singleton c ++ post)
      = some (String.mk (translateRunes pre.toList) ++ String.mk (escapeRune c)
          ++ String.mk (translateRunes post.toList)) := by
  have e : (pre ++ String.singleton c ++ post).toList = pre.toList ++ c :: post.toList := by
    simp [String.toList, String.data_append, String.singleton]
  rw [glob2regex_eq, e, translateRunes_plain_append _ _ h1 h2,
    translateRunes_default c _ hc1 hc2 hc3, translateRunes_plain _ h1 h2]
  congr 1
  apply String.ext
  simp [String.data_append]

theorem loop_at (pat : Array Char) (pre cs : List Char) (c : Char) (ans : String)
    (h : pat.toList = pre ++ c :: cs) (hc1 : c ≠ '?') (hc2 : c ≠ '*') (hc3 : c ≠ '[') :
    loop pat.size pat pre.length ans
      = some (ans ++ String.mk (escapeRune c) ++ String.mk (translateRunes cs)) := by
  rw [loop_eq _ _ (Nat.le_refl _) pat pre ans h, translateRunes_default c cs hc1 hc2 hc3]
  congr 1
  apply String.ext
  simp [String.data_append]

theorem unescape_escapeRune (c : Char) (rest : List Char) :
    unescape (escapeRune c ++ rest) = (unescape rest).map (fun r => c :: r) := by
  unfold escapeRune
  by_cases he : containsRune escapeSet c = true
  · simp [he, unescape]
  · have hc : c ≠ '\\' := by
      intro e
      apply he
      rw [e]
      decide
    cases rest <;> simp [he, unescape, hc]

theorem unescape_translateRunes (l : List Char) (h1 : '?' ∉ l) (h2 : '*' ∉ l)
    (h3 : '[' ∉ l) : unescape (translateRunes l) = some l := by
  induction l with
  | nil => simp [translateRunes_nil, unescape]
  | cons c cs ih =>
    have hc1 : c ≠ '?' := fun e => h1 (by simp [e])
    have hc2 : c ≠ '*' := fun e => h2 (by simp [e])
    have hc3 : c ≠ '[' := fun e => h3 (by simp [e])
    have ih1 := ih (fun e => h1 (by simp [e])) (fun e => h2 (by simp [e]))
      (fun e => h3 (by simp [e]))
    rw [translateRunes_default c cs hc1 hc2 hc3, unescape_escapeRune, ih1]
    rfl

theorem scanStops_skip (s : Nat) : ∀ (l : List Char) (i : Nat),
    (scanStops s l).getD i false = true →
      s ≤ i ∧ (scanStops 0 (l.drop s)).getD (i - s) false = true := by
  induction s with
  | zero => intro l i h; exact ⟨Nat.zero_le _, by simpa using h⟩
  | succ s ih =>
    intro l i h
    cases l with
    | nil => simp [scanStops] at h
    | cons a l =>
      cases i with
      | zero => simp [scanStops] at h
      | succ i =>
        have h2 : (scanStops s l).getD i false = true := by simpa [scanStops] using h
        obtain ⟨h3, h4⟩ := ih l i h2
        exact ⟨by omega, by simpa using h4⟩

theorem scannedAt_cons (c : Char) (cs rest : List Char)
    (h : scannedAt (c :: cs ++ rest) (cs.length + 1) = true) :
    itemLength (c :: (cs ++ rest)) - 1 ≤ cs.length ∧
    scannedAt (cs.drop (itemLength (c :: (cs ++ rest)) - 1) ++ rest)
      (cs.drop (itemLength (c :: (cs ++ rest)) - 1)).length = true := by
  have h2 : (scanStops (itemLength (c :: (cs ++ rest)) - 1) (cs ++ rest)).getD cs.length false
      = true := by
    simpa [scannedAt, scanStops] using h
  obtain ⟨h3, h4⟩ := scanStops_skip _ _ _ h2
  refine ⟨h3, ?_⟩
  rw [List.drop_append_of_le_length h3] at h4
  simpa [scannedAt] using h4

theorem takeWhile_append_of_not_mem (cs rest : List Char) (h : ']' ∉ cs) :
    (cs ++ rest).takeWhile (· ≠ ']') = cs ++ rest.takeWhile (· ≠ ']') := by
  induction cs with
  | nil => rfl
  | cons a l ih =>
    have ha : a ≠ ']' := fun e => h (by simp [e])
    have hl : ']' ∉ l := fun e => h (by simp [e])
    rw [List.cons_append, List.takeWhile_cons, ih hl]
    simp [ha]

theorem not_mem_takeWhile_close (cs : List Char) : ']' ∉ cs.takeWhile (· ≠ ']') := by
  intro h
  have := List.mem_takeWhile_imp h
  simp at this

theorem scanned_split (k : Nat) : ∀ (pre : List Char), pre.length ≤ k →
    ∀ (d : Char) (post : List Char),
      scannedAt (pre ++ d :: post) pre.length = true →
      translateRunes (pre ++ d :: post) = translateRunes pre ++ translateRunes (d :: post) := by
  induction k with
  | zero =>
    intro pre hk d post _
    have : pre = [] := List.eq_nil_of_length_eq_zero (by omega)
    subst this
    simp [translateRunes_nil]
  | succ k ih =>
    intro pre hk d post h
    cases pre with
    | nil => simp [translateRunes_nil]
    | cons c cs =>
      have hcs : cs.length ≤ k := by simpa using hk
      obtain ⟨hle, hsc⟩ := scannedAt_cons c cs (d :: post) h
      have hdl : (cs.drop (itemLength (c :: (cs ++ d :: post)) - 1)).length ≤ k := by
        rw [List.length_drop]
        omega
      have ih1 := ih _ hdl d post hsc
      by_cases hq : c = '?'
      · subst hq
        have hn : itemLength ('?' :: (cs ++ d :: post)) = 1 := by simp [itemLength]
        rw [hn] at ih1
        simp only [Nat.sub_self, List.drop_zero] at ih1
        rw [List.cons_append, translateRunes_cons, translateRunes_cons '?' cs, ih1]
        simp
      · by_cases hstar : c = '*'
        · subst hstar
          cases cs with
          | nil =>
            have hd : d ≠ '*' := by
              intro e
              subst e
              simp [itemLength] at hle
            rw [List.cons_append, translateRunes_cons, translateRunes_cons '*' []]
            simp [hd, translateRunes_nil]
          | cons e cs2 =>
            by_cases he : e = '*'
            · subst he
              have hn : itemLength ('*' :: ('*' :: cs2 ++ d :: post)) = 2 := by
                simp [itemLength]
              rw [hn] at ih1
              simp only [Nat.add_one_sub_one, List.drop_succ_cons, List.drop_zero] at ih1
              rw [List.cons_append, translateRunes_cons, translateRunes_cons '*' ('*' :: cs2)]
              simp [ih1]
            · have hn : itemLength ('*' :: (e :: cs2 ++ d :: post)) = 1 := by
                simp [itemLength, he]
              rw [hn] at ih1
              simp only [Nat.sub_self, List.drop_zero] at ih1
              rw [List.cons_append, translateRunes_cons, translateRunes_cons '*' (e :: cs2)]
              rw [List.cons_append] at ih1
              simp [he, ih1]
        · by_cases hb : c = '['
          · subst hb
            by_cases hm : ']' ∈ cs ++ d :: post
            · have hn : itemLength ('[' :: (cs ++ d :: post))
                  = ((cs ++ d :: post).takeWhile (· ≠ ']')).length + 2 := by
                simp only [itemLength, Char.reduceEq, if_false, if_true, hm]
              have hmc : ']' ∈ cs := by
                by_contra hc
                rw [hn, takeWhile_append_of_not_mem cs (d :: post) hc] at hle
                simp at hle
                omega
              have hsplit := split_close cs hmc
              generalize hbody : cs.takeWhile (· ≠ ']') = body at hsplit
              generalize htl : (cs.dropWhile (· ≠ ']')).tail = tl at hsplit
              have hnb : ']' ∉ body := by
                rw [← hbody]
                exact not_mem_takeWhile_close cs
              subst hsplit
              have e1 : (body ++ ']' :: tl) ++ d :: post = body ++ ']' :: (tl ++ d :: post) := by
                simp
              rw [e1, takeWhile_body body _ hnb] at hn
              rw [e1, hn] at ih1
              have e2 : (body ++ ']' :: tl).drop (body.length + 2 - 1) = tl := by
                have : body.length + 2 - 1 = body.length + 1 := by omega
                rw [this, List.drop_append_eq_append_drop]
                simp
              rw [e2] at ih1
              rw [List.cons_append, e1, translateRunes_bracket body _ hnb,
                translateRunes_bracket body tl hnb, ih1]
              simp
            · have hmc : ']' ∉ cs := fun e => hm (List.mem_append_left _ e)
              have hn : itemLength ('[' :: (cs ++ d :: post)) = 1 := by
                simp only [itemLength, Char.reduceEq, if_false, if_true, hm]
              rw [hn] at ih1
              simp only [Nat.sub_self, List.drop_zero] at ih1
              rw [List.cons_append, translateRunes_open _ hm, translateRunes_open _ hmc, ih1]
              simp
          · have hn : itemLength (c :: (cs ++ d :: post)) = 1 := by
              simp [itemLength, hstar, hb]
            rw [hn] at ih1
            simp only [Nat.sub_self, List.drop_zero] at ih1
            rw [List.cons_append, translateRunes_default c _ hq hstar hb,
              translateRunes_default c cs hq hstar hb, ih1]
            simp

theorem glob2regex_scanned (pre post : String) (c : Char)
    (hs : scannedAt (pre.toList ++ c :: post.toList) pre.toList.length = true)
    (hc1 : c ≠ '?') (hc2 : c ≠ '*') (hc3 : c ≠ '[') :
    glob2regex (pre ++ String.singleton c ++ post)
      = some (String.mk (translateRunes pre.toList) ++ String.mk (escapeRune c)
          ++ String.mk (translateRunes post.toList)) := by
  have e : (pre ++ String.singleton c ++ post).toList = pre.toList ++ c :: post.toList := by
    simp [String.toList, String.data_append, String.singleton]
  rw [glob2regex_eq, e, scanned_split _ _ (Nat.le_refl _) c post.toList hs,
    translateRunes_default c _ hc1 hc2 hc3]
  congr 1
  apply String.ext
  simp [String.data_append]

/-! ## Lemmas on the argument loops -/

theorem after_fresh_self (st : Run) : after st (fresh st) = st := by
  cases st
  simp [after, fresh]

theorem fresh_after (st out : Run) : fresh (after st out) = fresh out := by
  simp [after, fresh]

theorem after_after (st a b : Run) : after (after st a) b = after st (after a b) := by
  simp [after, List.append_assoc]

theorem blacklistBody_frame (m : String → Bool) (st : Run) (a : String) :
    blacklistBody m st a = after st (blacklistBody m (fresh st) a) := by
  cases st
  unfold blacklistBody
  split_ifs <;> simp_all [after, fresh, proc, skip]

theorem whitelistBody_frame (m : String → Bool) (st : Run) (a : String) :
    whitelistBody m st a = after st (whitelistBody m (fresh st) a) := by
  cases st
  unfold whitelistBody
  split_ifs <;> simp_all [after, fresh, proc, skip]

theorem foldl_frame (body : Run → String → Run)
    (hb : ∀ st a, body st a = after st (body (fresh st) a)) :
    ∀ (args : List String) (st : Run),
      args.foldl body st = after st (args.foldl body (fresh st)) := by
  intro args
  induction args with
  | nil => intro st; simp [after_fresh_self]
  | cons a l ih =>
    intro st
    simp only [List.foldl_cons]
    rw [ih (body st a), ih (body (fresh st) a), hb st a, fresh_after, after_after]

theorem blacklistLoop_frame (m : String → Bool) (st : Run) (args : List String) :
    blacklistLoop m st args = after st (blacklistLoop m (fresh st) args) :=
  foldl_frame (blacklistBody m) (blacklistBody_frame m) args st

theorem whitelistLoop_frame (m : String → Bool) (st : Run) (args : List String) :
    whitelistLoop m st args = after st (whitelistLoop m (fresh st) args) :=
  foldl_frame (whitelistBody m) (whitelistBody_frame m) args st

theorem blacklistLoop_append (m : String → Bool) (st : Run) (xs ys : List String) :
    blacklistLoop m st (xs ++ ys) = blacklistLoop m (blacklistLoop m st xs) ys := by
  simp [blacklistLoop, List.foldl_append]

theorem whitelistLoop_append (m : String → Bool) (st : Run) (xs ys : List String) :
    whitelistLoop m st (xs ++ ys) = whitelistLoop m (whitelistLoop m st xs) ys := by
  simp [whitelistLoop, List.foldl_append]

theorem blacklistLoop_cons (m : String → Bool) (st : Run) (a : String) (l : List String) :
    blacklistLoop m st (a :: l) = blacklistLoop m (blacklistBody m st a) l := rfl

theorem whitelistLoop_cons (m : String → Bool) (st : Run) (a : String) (l : List String) :
    whitelistLoop m st (a :: l) = whitelistLoop m (whitelistBody m st a) l := rfl

theorem blacklistLoop_ddash (m : String → Bool) (pre : List String) (h : "--" ∉ pre) :
    ∀ st : Run, (blacklistLoop m st pre).ddash = st.ddash := by
  induction pre with
  | nil => intro st; rfl
  | cons a l ih =>
    intro st
    have ha : a ≠ "--" := fun e => h (by simp [e])
    rw [blacklistLoop_cons, ih (fun e => h (by simp [e]))]
    unfold blacklistBody
    split_ifs <;> simp_all [proc, skip]

theorem whitelistLoop_ddash (m : String → Bool) (pre : List String) (h : "--" ∉ pre) :
    ∀ st : Run, (whitelistLoop m st pre).ddash = st.ddash := by
  induction pre with
  | nil => intro st; rfl
  | cons a l ih =>
    intro st
    have ha : a ≠ "--" := fun e => h (by simp [e])
    rw [whitelistLoop_cons, ih (fun e => h (by simp [e]))]
    unfold whitelistBody
    split_ifs <;> simp_all [proc, skip]

theorem blacklist_flag (m : String → Bool) (pre : List String) (a : String)
    (post : List String) (hpre : "--" ∉ pre) (hflag : HasPrefix a "-" = true)
    (h1 : a ≠ "-") (h2 : a ≠ "--") :
    blacklist m (pre ++ a :: post) = after (proc (blacklist m pre) a) (blacklist m post) := by
  have hd : (blacklist m pre).ddash = false := blacklistLoop_ddash m pre hpre start
  have hbody : blacklistBody m (blacklist m pre) a = proc (blacklist m pre) a := by
    unfold blacklistBody
    simp [h1, h2, hflag, hd]
  have hf : fresh (proc (blacklist m pre) a) = start := by
    simp [fresh, proc, start, hd]
  unfold blacklist at *
  rw [blacklistLoop_append, blacklistLoop_cons, hbody, blacklistLoop_frame, hf]

theorem whitelist_flag (m : String → Bool) (pre : List String) (a : String)
    (post : List String) (hpre : "--" ∉ pre) (hflag : HasPrefix a "-" = true)
    (h1 : a ≠ "-") (h2 : a ≠ "--") :
    whitelist m (pre ++ a :: post) = after (proc (whitelist m pre) a) (whitelist m post) := by
  have hd : (whitelist m pre).ddash = false := whitelistLoop_ddash m pre hpre start
  have hbody : whitelistBody m (whitelist m pre) a = proc (whitelist m pre) a := by
    unfold whitelistBody
    simp [h1, h2, hflag, hd]
  have hf : fresh (proc (whitelist m pre) a) = start := by
    simp [fresh, proc, start, hd]
  unfold whitelist at *
  rw [whitelistLoop_append, whitelistLoop_cons, hbody, whitelistLoop_frame, hf]

theorem blacklistBody_sep (m : String → Bool) (st : Run) (a : String)
    (h : "--" ∉ st.skipped) :
    "--" ∉ (blacklistBody m st a).skipped ∧
      (blacklistBody m st a).fnames.count "--"
        = st.fnames.count "--" + (if a = "--" then 1 else 0) := by
  by_cases ha : a = "--"
  · subst ha
    simp [blacklistBody, proc, h]
  · have ha2 : ¬ "--" = a := fun e => ha e.symm
    unfold blacklistBody
    split_ifs <;>
      simp_all [proc, skip, List.count_append, List.count_cons, List.count_nil]

theorem whitelistBody_sep (m : String → Bool) (st : Run) (a : String)
    (h : "--" ∉ st.skipped) :
    "--" ∉ (whitelistBody m st a).skipped ∧
      (whitelistBody m st a).fnames.count "--"
        = st.fnames.count "--" + (if a = "--" then 1 else 0) := by
  by_cases ha : a = "--"
  · subst ha
    simp [whitelistBody, proc, h]
  · have ha2 : ¬ "--" = a := fun e => ha e.symm
    unfold whitelistBody
    split_ifs <;>
      simp_all [proc, skip, List.count_append, List.count_cons, List.count_nil]

theorem foldl_sep (body : Run → String → Run)
    (hb : ∀ st a, "--" ∉ st.skipped → "--" ∉ (body st a).skipped ∧
      (body st a).fnames.count "--" = st.fnames.count "--" + (if a = "--" then 1 else 0)) :
    ∀ (args : List String) (st : Run), "--" ∉ st.skipped →
      "--" ∉ (args.foldl body st).skipped ∧
        (args.foldl body st).fnames.count "--" = st.fnames.count "--" + args.count "--" := by
  intro args
  induction args with
  | nil => intro st h; simpa using h
  | cons a l ih =>
    intro st h
    obtain ⟨h1, h2⟩ := hb st a h
    obtain ⟨h3, h4⟩ := ih (body st a) h1
    refine ⟨h3, ?_⟩
    rw [List.foldl_cons, h4, h2, List.count_cons]
    by_cases ha : a = "--"
    · simp [ha]; omega
    · simp [ha]

theorem blacklistBody_congr (m m' : String → Bool) (h : ∀ a, a ≠ "--" → m a = m' a)
    (st : Run) (a : String) : blacklistBody m st a = blacklistBody m' st a := by
  by_cases ha : a = "--"
  · subst ha
    simp [blacklistBody]
  · unfold blacklistBody
    rw [h a ha]

theorem whitelistBody_congr (m m' : String → Bool) (h : ∀ a, a ≠ "--" → m a = m' a)
    (st : Run) (a : String) : whitelistBody m st a = whitelistBody m' st a := by
  by_cases ha : a = "--"
  · subst ha
    simp [whitelistBody]
  · unfold whitelistBody
    rw [h a ha]

theorem blacklistLoop_seen (m : String → Bool) (post : List String) :
    ∀ st : Run, st.ddash = true →
      blacklistLoop m st post
        = { ddash := true,
            fnames := st.fnames ++ post.filter (fun a => a == "--" || !m a),
            skipped := st.skipped ++ post.filter (fun a => a != "--" && m a) } := by
  induction post with
  | nil => intro st h; cases st; simp_all [blacklistLoop]
  | cons a l ih =>
    intro st h
    have hd : (blacklistBody m st a).ddash = true := by
      unfold blacklistBody
      split_ifs <;> simp_all [proc, skip]
    rw [blacklistLoop_cons, ih _ hd]
    by_cases ha : a = "--"
    · subst ha
      simp [blacklistBody, proc, List.filter_cons]
    · by_cases hm : m a = true
      · have e : blacklistBody m st a = skip st a := by
          unfold blacklistBody
          split_ifs <;> simp_all
        simp [e, skip, List.filter_cons, ha, hm]
      · have e : blacklistBody m st a = proc st a := by
          unfold blacklistBody
          split_ifs <;> simp_all
        simp [e, proc, List.filter_cons, ha, hm]

theorem whitelistLoop_seen (m : String → Bool) (post : List String) :
    ∀ st : Run, st.ddash = true →
      whitelistLoop m st post
        = { ddash := true,
            fnames := st.fnames ++ post.filter (fun a => a == "--" || m a),
            skipped := st.skipped ++ post.filter (fun a => a != "--" && !m a) } := by
  induction post with
  | nil => intro st h; cases st; simp_all [whitelistLoop]
  | cons a l ih =>
    intro st h
    have hd : (whitelistBody m st a).ddash = true := by
      unfold whitelistBody
      split_ifs <;> simp_all [proc, skip]
    rw [whitelistLoop_cons, ih _ hd]
    by_cases ha : a = "--"
    · subst ha
      simp [whitelistBody, proc, List.filter_cons]
    · by_cases hm : m a = true
      · have e : whitelistBody m st a = proc st a := by
          unfold whitelistBody
          split_ifs <;> simp_all
        simp [e, proc, List.filter_cons, ha, hm]
      · have e : whitelistBody m st a = skip st a := by
          unfold whitelistBody
          split_ifs <;> simp_all
        simp [e, skip, List.filter_cons, ha, hm]

theorem blacklist_dash (m : String → Bool) (pre post : List String) :
    blacklist m (pre ++ "-" :: post)
      = after (if m "-" then skip (blacklist m pre) "-" else proc (blacklist m pre) "-")
          (blacklistLoop m (fresh (blacklist m pre)) post) := by
  have hbody : ∀ st, blacklistBody m st "-" = if m "-" then skip st "-" else proc st "-" := by
    intro st
    simp [blacklistBody]
  have hf : ∀ st, fresh (if m "-" then skip st "-" else proc st "-") = fresh st := by
    intro st
    split_ifs <;> simp [fresh, skip, proc]
  unfold blacklist
  rw [blacklistLoop_append, blacklistLoop_cons, hbody, blacklistLoop_frame, hf]

theorem whitelist_dash (m : String → Bool) (pre post : List String) :
    whitelist m (pre ++ "-" :: post)
      = after (if m "-" then proc (whitelist m pre) "-" else skip (whitelist m pre) "-")
          (whitelistLoop m (fresh (whitelist m pre)) post) := by
  have hbody : ∀ st, whitelistBody m st "-" = if m "-" then proc st "-" else skip st "-" := by
    intro st
    by_cases hm : m "-" = true <;> simp [whitelistBody, hm]
  have hf : ∀ st, fresh (if m "-" then proc st "-" else skip st "-") = fresh st := by
    intro st
    split_ifs <;> simp [fresh, skip, proc]
  unfold whitelist
  rw [whitelistLoop_append, whitelistLoop_cons, hbody, whitelistLoop_frame, hf]

theorem whitelistBody_eq_blacklistBody (m : String → Bool) (st : Run) (a : String) :
    whitelistBody m st a = blacklistBody (fun x => !m x) st a := rfl

theorem whitelistLoop_eq_blacklistLoop (m : String → Bool) (st : Run) (args : List String) :
    whitelistLoop m st args = blacklistLoop (fun x => !m x) st args := by
  have e : whitelistBody m = blacklistBody (fun x => !m x) :=
    funext fun st => funext fun a => whitelistBody_eq_blacklistBody m st a
  simp [whitelistLoop, blacklistLoop, e]

theorem whitelist_eq_blacklist (m : String → Bool) (args : List String) :
    whitelist m args = blacklist (fun x => !m x) args :=
  whitelistLoop_eq_blacklistLoop m start args

theorem blacklistBody_step (m : String → Bool) (st : Run) (a : String) :
    ∃ b : Bool,
      (blacklistBody m st a).fnames = st.fnames ++ (if b = true then [a] else []) ∧
      (blacklistBody m st a).skipped = st.skipped ++ (if b = true then [] else [a]) := by
  unfold blacklistBody
  split_ifs
  all_goals first
    | exact ⟨true, rfl, (List.append_nil _).symm⟩
    | exact ⟨false, (List.append_nil _).symm, rfl⟩

theorem forwardedBy_cons (b : Bool) (mask : List Bool) (a : String) (args : List String) :
    forwardedBy (b :: mask) (a :: args)
      = (if b = true then [a] else []) ++ forwardedBy mask args := by
  cases b <;> simp [forwardedBy, List.filter_cons]

theorem skippedBy_cons (b : Bool) (mask : List Bool) (a : String) (args : List String) :
    skippedBy (b :: mask) (a :: args)
      = (if b = true then [] else [a]) ++ skippedBy mask args := by
  cases b <;> simp [skippedBy, List.filter_cons]

theorem blacklistLoop_mask (m : String → Bool) (args : List String) :
    ∀ st : Run, ∃ mask : List Bool, mask.length = args.length ∧
      (blacklistLoop m st args).fnames = st.fnames ++ forwardedBy mask args ∧
      (blacklistLoop m st args).skipped = st.skipped ++ skippedBy mask args := by
  induction args with
  | nil => intro st; exact ⟨[], rfl, by simp [blacklistLoop, forwardedBy, skippedBy]⟩
  | cons a l ih =>
    intro st
    obtain ⟨b, hb1, hb2⟩ := blacklistBody_step m st a
    obtain ⟨mask, hlen, hf, hs⟩ := ih (blacklistBody m st a)
    refine ⟨b :: mask, by simp [hlen], ?_, ?_⟩
    · rw [blacklistLoop_cons, hf, hb1, forwardedBy_cons, List.append_assoc]
    · rw [blacklistLoop_cons, hs, hb2, skippedBy_cons, List.append_assoc]

theorem forwardedBy_sublist (mask : List Bool) : ∀ args : List String,
    (forwardedBy mask args).Sublist args := by
  induction mask with
  | nil => intro args; simp [forwardedBy]
  | cons b mask ih =>
    intro args
    cases args with
    | nil => simp [forwardedBy]
    | cons a l =>
      rw [forwardedBy_cons]
      cases b
      · simpa using (ih l).cons a
      · simpa using (ih l).cons₂ a

theorem skippedBy_sublist (mask : List Bool) : ∀ args : List String,
    (skippedBy mask args).Sublist args := by
  induction mask with
  | nil => intro args; simp [skippedBy]
  | cons b mask ih =>
    intro args
    cases args with
    | nil => simp [skippedBy]
    | cons a l =>
      rw [skippedBy_cons]
      cases b
      · simpa using (ih l).cons₂ a
      · simpa using (ih l).cons a

theorem length_forwardedBy_add (mask : List Bool) : ∀ args : List String,
    mask.length = args.length →
    (forwardedBy mask args).length + (skippedBy mask args).length = args.length := by
  induction mask with
  | nil =>
    intro args h
    have : args = [] := List.eq_nil_of_length_eq_zero (by simpa using h.symm)
    subst this
    simp [forwardedBy, skippedBy]
  | cons b mask ih =>
    intro args h
    cases args with
    | nil => simp at h
    | cons a l =>
      have hl : mask.length = l.length := by simpa using h
      have := ih l hl
      rw [forwardedBy_cons, skippedBy_cons]
      cases b <;> simp <;> omega

theorem blacklist_partition (m : String → Bool) (args : List String) :
    (∃ mask : List Bool, mask.length = args.length ∧
      (blacklist m args).fnames = forwardedBy mask args ∧
      (blacklist m args).skipped = skippedBy mask args) ∧
    (blacklist m args).fnames.Sublist args ∧ (blacklist m args).skipped.Sublist args ∧
    (blacklist m args).fnames.length + (blacklist m args).skipped.length = args.length := by
  obtain ⟨mask, hlen, hf, hs⟩ := blacklistLoop_mask m args start
  have hf2 : (blacklist m args).fnames = forwardedBy mask args := by
    simpa [blacklist, start] using hf
  have hs2 : (blacklist m args).skipped = skippedBy mask args := by
    simpa [blacklist, start] using hs
  refine ⟨⟨mask, hlen, hf2, hs2⟩, ?_, ?_, ?_⟩
  · rw [hf2]; exact forwardedBy_sublist mask args
  · rw [hs2]; exact skippedBy_sublist mask args
  · rw [hf2, hs2]; exact length_forwardedBy_add mask args hlen

theorem matchAny_eq_any (matchers : List Matcher) (fname : String) :
    matchAny matchers fname = matchers.any (fun mt => mt fname) := by
  induction matchers with
  | nil => rfl
  | cons mt l ih =>
    rw [matchAny, List.any_cons, ih]
    cases mt fname <;> simp

theorem blacklistLoop_unseen (m : String → Bool) (pre : List String) (h : "--" ∉ pre) :
    ∀ st : Run, st.ddash = false →
      blacklistLoop m st pre
        = { ddash := false,
            fnames := st.fnames ++ pre.filter (fun a => isFlag a || !m a),
            skipped := st.skipped ++ pre.filter (fun a => !isFlag a && m a) } := by
  induction pre with
  | nil => intro st hd; cases st; simp_all [blacklistLoop]
  | cons a l ih =>
    intro st hd
    have ha : a ≠ "--" := fun e => h (by simp [e])
    have hl : "--" ∉ l := fun e => h (by simp [e])
    have hd2 : (blacklistBody m st a).ddash = false := by
      unfold blacklistBody
      split_ifs <;> simp_all [proc, skip]
    rw [blacklistLoop_cons, ih hl _ hd2]
    by_cases h1 : a = "-"
    · subst h1
      by_cases hm : m "-" = true
      · have e : blacklistBody m st "-" = skip st "-" := by simp [blacklistBody, hm]
        have hf : isFlag "-" = false := by decide
        simp [e, skip, List.filter_cons, hm, hf]
      · have e : blacklistBody m st "-" = proc st "-" := by simp [blacklistBody, hm]
        have hf : isFlag "-" = false := by decide
        simp [e, proc, List.filter_cons, hm, hf]
    · by_cases hp : HasPrefix a "-" = true
      · have e : blacklistBody m st a = proc st a := by
          simp [blacklistBody, h1, ha, hp, hd]
        have hf : isFlag a = true := by simp [isFlag, h1, hp]
        simp [e, proc, List.filter_cons, hf]
      · have hf : isFlag a = false := by simp [isFlag, hp]
        by_cases hm : m a = true
        · have e : blacklistBody m st a = skip st a := by
            simp [blacklistBody, h1, ha, hp, hm]
          simp [e, skip, List.filter_cons, hm, hf]
        · have e : blacklistBody m st a = proc st a := by
            simp [blacklistBody, h1, ha, hp, hm]
          simp [e, proc, List.filter_cons, hm, hf]

theorem separator_not_mem_before (args : List String) : "--" ∉ beforeSeparator args := by
  intro h
  have := List.mem_takeWhile_imp h
  simp at this

theorem fromSeparator_cases (args : List String) :
    fromSeparator args = [] ∨ ∃ post, fromSeparator args = "--" :: post := by
  cases hr : fromSeparator args with
  | nil => exact Or.inl rfl
  | cons a post =>
    right
    have := List.head_dropWhile_not (fun a => a != "--") args
    unfold fromSeparator at hr
    simp only [hr] at this
    have ha : a = "--" := by simpa using this
    exact ⟨post, by rw [ha]⟩

theorem before_append_from (args : List String) :
    beforeSeparator args ++ fromSeparator args = args :=
  List.takeWhile_append_dropWhile _ args

theorem blacklist_split (m : String → Bool) (args : List String) :
    (blacklist m args).fnames
        = (beforeSeparator args).filter (fun a => isFlag a || !m a)
          ++ (fromSeparator args).filter (fun a => a == "--" || !m a) ∧
    (blacklist m args).skipped
        = (beforeSeparator args).filter (fun a => !isFlag a && m a)
          ++ (fromSeparator args).filter (fun a => a != "--" && m a) := by
  have hpre := blacklistLoop_unseen m (beforeSeparator args)
    (separator_not_mem_before args) start rfl
  have hsplit : blacklist m args
      = blacklistLoop m (blacklist m (beforeSeparator args)) (fromSeparator args) := by
    conv_lhs => rw [← before_append_from args]
    unfold blacklist
    rw [blacklistLoop_append]
  rcases fromSeparator_cases args with hr | ⟨post, hr⟩
  · rw [hsplit, hr]
    unfold blacklist
    rw [hpre]
    simp [blacklistLoop, start]
  · rw [hsplit, hr, blacklistLoop_cons]
    unfold blacklist
    rw [hpre]
    have e : blacklistBody m
        { ddash := false,
          fnames := start.fnames ++ (beforeSeparator args).filter (fun a => isFlag a || !m a),
          skipped := start.skipped ++ (beforeSeparator args).filter (fun a => !isFlag a && m a) }
        "--"
        = { ddash := true,
            fnames := (beforeSeparator args).filter (fun a => isFlag a || !m a) ++ ["--"],
            skipped := (beforeSeparator args).filter (fun a => !isFlag a && m a) } := by
      simp [blacklistBody, proc, start]
    rw [e, blacklistLoop_seen m post _ rfl]
    simp [List.filter_cons]

theorem whitelist_split (m : String → Bool) (args : List String) :
    (whitelist m args).fnames
        = (beforeSeparator args).filter (fun a => isFlag a || m a)
          ++ (fromSeparator args).filter (fun a => a == "--" || m a) ∧
    (whitelist m args).skipped
        = (beforeSeparator args).filter (fun a => !isFlag a && !m a)
          ++ (fromSeparator args).filter (fun a => a != "--" && !m a) := by
  rw [whitelist_eq_blacklist]
  have h := blacklist_split (fun x => !m x) args
  simpa using h

theorem filter_eq_of_false (m : String → Bool) (l : List String)
    (p q : String → Bool) (hm : ∀ a ∈ l, m a = false)
    (hpq : ∀ a, m a = false → p a = q a) : l.filter p = l.filter q :=
  List.filter_congr fun a ha => hpq a (hm a ha)

/-! ## Lemmas on matcher construction -/

theorem makeMatcher_unknown (env : Env) (conf : Conf) (pattern : String)
    (h1 : conf.matcher ≠ "string") (h2 : conf.matcher ≠ "glob")
    (h3 : conf.matcher ≠ "regex") :
    makeMatcher env conf pattern = Except.error conf.matcher := by
  simp [makeMatcher, h1, h2, h3]

theorem scanLoop_unknown (env : Env) (conf : Conf) (text : String) (rest : List String)
    (matchers : List Matcher)
    (h1 : conf.matcher ≠ "string") (h2 : conf.matcher ≠ "glob")
    (h3 : conf.matcher ≠ "regex") :
    scanLoop env conf (text :: rest) matchers = Except.error conf.matcher := by
  rw [scanLoop, makeMatcher_unknown env conf text h1 h2 h3]

theorem makeMatchers_lines (env : Env) (conf : Conf) (list path : String) (ls : List String)
    (hp : expanduser env list = Except.ok path) (hl : env.lines path = some ls) :
    makeMatchers env conf list = scanLoop env conf ls [] := by
  simp [makeMatchers, hp, hl]

theorem makeMatchers_unknown (env : Env) (conf : Conf) (list path : String)
    (ls : List String)
    (h1 : conf.matcher ≠ "string") (h2 : conf.matcher ≠ "glob")
    (h3 : conf.matcher ≠ "regex")
    (hp : expanduser env list = Except.ok path) (hl : env.lines path = some ls) :
    (ls ≠ [] → makeMatchers env conf list = Except.error conf.matcher) ∧
    (ls = [] → makeMatchers env conf list = Except.ok []) := by
  rw [makeMatchers_lines env conf list path ls hp hl]
  constructor
  · intro hne
    cases ls with
    | nil => exact absurd rfl hne
    | cons text rest => exact scanLoop_unknown env conf text rest [] h1 h2 h3
  · intro he
    rw [he, scanLoop]

theorem splitSlash_ne_nil (l : List Char) : splitSlash l ≠ [] := by
  induction l with
  | nil => simp [splitSlash]
  | cons c cs ih =>
    rw [splitSlash]
    split
    · simp
    · split <;> simp

theorem splitSlash_of_not_mem (e : List Char) (h : '/' ∉ e) : splitSlash e = [e] := by
  induction e with
  | nil => rfl
  | cons c cs ih =>
    have hc : c ≠ '/' := fun x => h (by simp [x])
    have hcs : '/' ∉ cs := fun x => h (by simp [x])
    rw [splitSlash, if_neg hc, ih hcs]

theorem splitSlash_name_cons (e rest : List Char) (h : '/' ∉ e) :
    splitSlash (e ++ '/' :: rest) = e :: splitSlash rest := by
  induction e with
  | nil => simp [splitSlash]
  | cons c cs ih =>
    have hc : c ≠ '/' := fun x => h (by simp [x])
    have hcs : '/' ∉ cs := fun x => h (by simp [x])
    rw [List.cons_append, splitSlash, if_neg hc, ih hcs]

theorem joinSlash_cons_cons (e e2 : List Char) (l : List (List Char)) :
    joinSlash (e :: e2 :: l) = e ++ '/' :: joinSlash (e2 :: l) := rfl

theorem splitSlash_joinSlash (es : List (List Char)) (hne : es ≠ [])
    (h : ∀ e ∈ es, '/' ∉ e) : splitSlash (joinSlash es) = es := by
  induction es with
  | nil => exact absurd rfl hne
  | cons e l ih =>
    cases l with
    | nil => exact splitSlash_of_not_mem e (h e (by simp))
    | cons e2 l2 =>
      have h1 : '/' ∉ e := h e (by simp)
      have h2 : ∀ x ∈ e2 :: l2, '/' ∉ x := fun x hx => h x (by simp [hx])
      rw [joinSlash_cons_cons, splitSlash_name_cons e _ h1, ih (by simp) h2]

theorem joinSlash_append (hs rs : List (List Char)) (h1 : hs ≠ []) (h2 : rs ≠ []) :
    joinSlash (hs ++ rs) = joinSlash hs ++ '/' :: joinSlash rs := by
  induction hs with
  | nil => exact absurd rfl h1
  | cons e l ih =>
    cases l with
    | nil =>
      cases rs with
      | nil => exact absurd rfl h2
      | cons r rs2 => simp [joinSlash]
    | cons e2 l2 =>
      have h3 := ih (by simp)
      rw [List.cons_append, List.cons_append, joinSlash_cons_cons, ← List.cons_append, h3,
        joinSlash_cons_cons]
      simp

theorem isName_iff (e : List Char) :
    isName e = true ↔ e ≠ [] ∧ '/' ∉ e ∧ e ≠ ['.'] ∧ e ≠ ['.', '.'] := by
  simp [isName, and_assoc]

theorem foldl_cleanStep_names (rooted : Bool) (names : List (List Char))
    (h : ∀ e ∈ names, isName e = true) :
    ∀ kept : List (List Char),
      names.foldl (cleanStep rooted) kept = names.reverse ++ kept := by
  induction names with
  | nil => intro kept; rfl
  | cons e l ih =>
    intro kept
    obtain ⟨h1, _, h3, h4⟩ := (isName_iff e).mp (h e (by simp))
    have hstep : cleanStep rooted kept e = e :: kept := by
      simp [cleanStep, h1, h3, h4]
    rw [List.foldl_cons, hstep, ih (fun x hx => h x (by simp [hx]))]
    simp

theorem joinSlash_ne_nil (es : List (List Char)) (hne : es ≠ [])
    (h : ∀ e ∈ es, isName e = true) : joinSlash es ≠ [] := by
  cases es with
  | nil => exact absurd rfl hne
  | cons e l =>
    have h1 := ((isName_iff e).mp (h e (by simp))).1
    cases l with
    | nil => simpa [joinSlash] using h1
    | cons e2 l2 => simp [joinSlash_cons_cons, h1]

theorem filepathJoin_names (hs rs : List (List Char)) (h1 : hs ≠ []) (h2 : rs ≠ [])
    (hh : hs.all isName = true) (hr : rs.all isName = true) :
    filepathJoin (String.mk ('/' :: joinSlash hs)) (String.mk (joinSlash rs))
      = String.mk ('/' :: joinSlash hs) ++ "/" ++ String.mk (joinSlash rs) := by
  have hall : ∀ e ∈ hs ++ rs, isName e = true := by
    intro e he
    rcases List.mem_append.mp he with x | x
    · exact List.all_eq_true.mp hh e x
    · exact List.all_eq_true.mp hr e x
  have hpath : String.mk ('/' :: joinSlash hs) ++ "/" ++ String.mk (joinSlash rs)
      = String.mk ('/' :: joinSlash (hs ++ rs)) := by
    apply String.ext
    simp [String.data_append, joinSlash_append hs rs h1 h2]
  have hne : String.mk ('/' :: joinSlash hs) ≠ "" := by
    intro e
    have := congrArg String.toList e
    simp at this
  have hne2 : String.mk ('/' :: joinSlash (hs ++ rs)) ≠ "" := by
    intro e
    have := congrArg String.toList e
    simp at this
  have hsplit : splitSlash ('/' :: joinSlash (hs ++ rs)) = [] :: (hs ++ rs) := by
    rw [splitSlash, if_pos rfl, splitSlash_joinSlash _ (by simp [h1])
      (fun e he => ((isName_iff e).mp (hall e he)).2.1)]
  unfold filepathJoin
  rw [if_pos hne, hpath]
  unfold filepathClean
  rw [if_neg hne2]
  have hl : (String.mk ('/' :: joinSlash (hs ++ rs))).toList = '/' :: joinSlash (hs ++ rs) := rfl
  simp only [hl, List.head?_cons, beq_self_eq_true, if_true, hsplit, List.foldl_cons]
  have hs0 : cleanStep true [] [] = [] := by simp [cleanStep]
  rw [hs0, foldl_cleanStep_names true (hs ++ rs) hall []]
  simp

theorem expanduser_home (env : Env) (h : String) (hh : env.home = some h) :
    expanduser env "~" = Except.ok h := by
  simp [expanduser, hh]

theorem expanduser_join (env : Env) (h rest : String) (hh : env.home = some h) :
    expanduser env ("~/" ++ rest) = Except.ok (env.join h rest) := by
  have hl : ("~/" ++ rest).toList = '~' :: '/' :: rest.toList := rfl
  have hne : "~/" ++ rest ≠ "~" := by
    intro e
    have e2 := congrArg String.toList e
    rw [hl] at e2
    simp at e2
  have hp : HasPrefix ("~/" ++ rest) "~/" = true := by
    unfold HasPrefix
    rw [hl]
    simp [List.isPrefixOf]
  have hd : String.mk (("~/" ++ rest).toList.drop 2) = rest := by
    rw [hl]
    rfl
  simp only [expanduser, hne, if_false, hp, if_true, hh, hd]

theorem expanduser_other (env : Env) (path : String) (h1 : path ≠ "~")
    (h2 : HasPrefix path "~/" = false) : expanduser env path = Except.ok path := by
  simp [expanduser, h1, h2]

theorem hasPrefix_append (a b : String) : HasPrefix (a ++ b) a = true := by
  unfold HasPrefix
  rw [List.isPrefixOf_iff_prefix]
  simp [String.toList, String.data_append]

theorem hasSuffix_append (a b : String) : HasSuffix (a ++ b) b = true := by
  unfold HasSuffix
  rw [List.isSuffixOf_iff_suffix]
  simp [String.toList, String.data_append]

theorem TestExpandUser_depends_on_home :
    (expanduser
        { home := some "/home/u", join := filepathJoin, abs := fun x => x,
          compile := fun _ => none, lines := fun _ => none }
        "~/.local" = Except.ok "/home/u/.local" ∧
      HasPrefix "/home/u/.local" "/home" = true ∧
      HasSuffix "/home/u/.local" "/.local" = true) ∧
    (expanduser
        { home := some "/root", join := filepathJoin, abs := fun x => x,
          compile := fun _ => none, lines := fun _ => none }
        "~/.local" = Except.ok "/root/.local" ∧
      HasPrefix "/root/.local" "/home" = false ∧
      HasSuffix "/root/.local" "/.local" = true) :=
  ⟨⟨rfl, by decide, by decide⟩, ⟨rfl, by decide, by decide⟩⟩

/-! ## Lemmas on the parser of `regexp` -/

theorem toNat_ofNat_char (n : Nat) (h : n < 0xD800 ∨ (0xDFFF < n ∧ n < 0x110000)) :
    (Char.ofNat n).toNat = n := by
  unfold Char.ofNat
  rw [dif_pos h]
  simp [Char.ofNatAux, Char.toNat, UInt32.toNat]

theorem toNat_ofNat_byte (n : Nat) (h : n < 256) : (UInt8.ofNat n).toNat = n := by
  simp [UInt8.toNat, UInt8.ofNat]
  omega

theorem char_valid (c : Char) :
    c.toNat < 0xD800 ∨ (0xDFFF < c.toNat ∧ c.toNat < 0x110000) := c.valid

theorem decodeRune_encodeRune (c : Char) (rest : List UInt8) :
    decodeRune (encodeRune c ++ rest) = (c, (encodeRune c).length) := by
  have hv := char_valid c
  generalize hvv : c.toNat = v at hv
  have hc : Char.ofNat v = c := by rw [← hvv]; exact Char.ofNat_toNat c
  unfold encodeRune
  simp only [hvv]
  by_cases h1 : v < 0x80
  · have hb0 := toNat_ofNat_byte v (by omega)
    simp [h1, decodeRune, hb0, hc]
  · by_cases h2 : v < 0x800
    · have hb0 := toNat_ofNat_byte (0xC0 + v / 64) (by omega)
      have hb1 := toNat_ofNat_byte (0x80 + v % 64) (by omega)
      have e : (192 + v / 64 - 192) * 64 + (128 + v % 64 - 128) = v := by omega
      have a1 : ¬ (192 + v / 64 < 128) := by omega
      have a2 : 194 ≤ 192 + v / 64 ∧ 192 + v / 64 ≤ 223 := by omega
      have a3 : 128 + v % 64 ≤ 191 := by omega
      simp [h1, h2, decodeRune, hb0, hb1, isCont, a1, a2, a3]
      rw [← hc]
      exact congrArg Char.ofNat (by omega)
    · by_cases h3 : v < 0x10000
      · have hb0 := toNat_ofNat_byte (0xE0 + v / 4096) (by omega)
        have hb1 := toNat_ofNat_byte (0x80 + v / 64 % 64) (by omega)
        have hb2 := toNat_ofNat_byte (0x80 + v % 64) (by omega)
        have a1 : ¬ (224 + v / 4096 < 128) := by omega
        have a2 : ¬ (194 ≤ 224 + v / 4096 ∧ 224 + v / 4096 ≤ 223) := by omega
        have a3 : 224 ≤ 224 + v / 4096 ∧ 224 + v / 4096 ≤ 239 := by omega
        have a4 : 128 + v % 64 ≤ 191 := by omega
        have a5 : acceptSecond (224 + v / 4096) (UInt8.ofNat (128 + v / 64 % 64)) = true := by
          unfold acceptSecond
          rw [hb1]
          split_ifs <;> simp [isCont, hb1] <;> omega
        simp [h1, h2, h3, decodeRune, hb0, hb1, hb2, isCont, a1, a2, a3, a4, a5]
        rw [← hc]
        exact congrArg Char.ofNat (by omega)
      · have hb0 := toNat_ofNat_byte (0xF0 + v / 262144) (by omega)
        have hb1 := toNat_ofNat_byte (0x80 + v / 4096 % 64) (by omega)
        have hb2 := toNat_ofNat_byte (0x80 + v / 64 % 64) (by omega)
        have hb3 := toNat_ofNat_byte (0x80 + v % 64) (by omega)
        have a1 : ¬ (240 + v / 262144 < 128) := by omega
        have a2 : ¬ (194 ≤ 240 + v / 262144 ∧ 240 + v / 262144 ≤ 223) := by omega
        have a3 : ¬ (224 ≤ 240 + v / 262144 ∧ 240 + v / 262144 ≤ 239) := by omega
        have a4 : 240 ≤ 240 + v / 262144 ∧ 240 + v / 262144 ≤ 244 := by omega
        have a5 : 128 + v % 64 ≤ 191 := by omega
        have a6 : 128 + v / 64 % 64 ≤ 191 := by omega
        have a7 : acceptSecond (240 + v / 262144) (UInt8.ofNat (128 + v / 4096 % 64)) = true := by
          unfold acceptSecond
          rw [hb1]
          split_ifs <;> simp [isCont, hb1] <;> omega
        simp [h1, h2, h3, decodeRune, hb0, hb1, hb2, hb3, isCont, a1, a2, a3, a4, a5, a6, a7]
        rw [← hc]
        exact congrArg Char.ofNat (by omega)

theorem encodeRune_ne_nil (c : Char) : encodeRune c ≠ [] := by
  unfold encodeRune
  simp only
  split_ifs <;> simp

theorem runesFrom_append_skip (pre rest : List UInt8) :
    runesFrom pre.length (pre ++ rest) = runesFrom 0 rest := by
  induction pre with
  | nil => rfl
  | cons b l ih => simpa [runesFrom] using ih

theorem runes_utf8 (l : List Char) : runes (utf8 l) = l := by
  induction l with
  | nil => rfl
  | cons c cs ih =>
    have hd := decodeRune_encodeRune c (utf8 cs)
    have he : utf8 (c :: cs) = encodeRune c ++ utf8 cs := by simp [utf8]
    cases hb : encodeRune c with
    | nil => exact absurd hb (encodeRune_ne_nil c)
    | cons b0 tl =>
      rw [hb] at hd
      rw [he, hb]
      unfold runes
      rw [List.cons_append, runesFrom]
      rw [List.cons_append] at hd
      rw [hd]
      simp only [List.length_cons, Nat.add_one_sub_one]
      rw [runesFrom_append_skip]
      exact congrArg (List.cons c) ih

theorem runeError_toNat : runeError.toNat = 0xFFFD := by decide

theorem acceptSecond_bounds (x : Nat) (b : UInt8) (h : acceptSecond x b = true) :
    0x80 ≤ b.toNat ∧ b.toNat ≤ 0xBF ∧ (x = 0xE0 → 0xA0 ≤ b.toNat) ∧
    (x = 0xED → b.toNat ≤ 0x9F) ∧ (x = 0xF0 → 0x90 ≤ b.toNat) ∧
    (x = 0xF4 → b.toNat ≤ 0x8F) := by
  unfold acceptSecond at h
  split_ifs at h <;> simp [isCont] at h <;> omega

theorem isCont_bounds (b : UInt8) (h : isCont b = true) :
    0x80 ≤ b.toNat ∧ b.toNat ≤ 0xBF := by
  simpa [isCont] using h

theorem decodeRune_small (b0 : UInt8) (rest : List UInt8)
    (h : (decodeRune (b0 :: rest)).1.toNat < 128) :
    (decodeRune (b0 :: rest)).1.toNat = b0.toNat := by
  have he := runeError_toNat
  by_cases h1 : b0.toNat < 0x80
  · simp only [decodeRune, h1, if_true]
    exact toNat_ofNat_char _ (by omega)
  · exfalso
    by_cases h2 : 0xC2 ≤ b0.toNat ∧ b0.toNat ≤ 0xDF
    · cases rest with
      | nil =>
        simp only [decodeRune, h1, if_false, h2, and_self, if_true] at h
        omega
      | cons b1 r =>
        by_cases hc : isCont b1 = true
        · have hb := isCont_bounds b1 hc
          simp only [decodeRune, h1, if_false, h2, and_self, if_true, hc] at h
          rw [toNat_ofNat_char _ (by omega)] at h
          omega
        · simp only [decodeRune, h1, if_false, h2, and_self, if_true, hc] at h
          simp at h
          omega
    · by_cases h3 : 0xE0 ≤ b0.toNat ∧ b0.toNat ≤ 0xEF
      · match rest with
        | [] =>
          simp only [decodeRune, h1, if_false, h2, h3, and_self, if_true] at h
          omega
        | [_] =>
          simp only [decodeRune, h1, if_false, h2, h3, and_self, if_true] at h
          omega
        | b1 :: b2 :: r =>
          by_cases hc : (acceptSecond b0.toNat b1 && isCont b2) = true
          · have hc2 := hc
            rw [Bool.and_eq_true] at hc2
            have hb1 := acceptSecond_bounds _ _ hc2.1
            have hb2 := isCont_bounds b2 hc2.2
            simp only [decodeRune, h1, if_false, h2, h3, and_self, if_true, hc] at h
            rw [toNat_ofNat_char _ (by omega)] at h
            omega
          · simp only [decodeRune, h1, if_false, h2, h3, and_self, if_true, hc] at h
            simp at h
            omega
      · by_cases h4 : 0xF0 ≤ b0.toNat ∧ b0.toNat ≤ 0xF4
        · match rest with
          | [] =>
            simp only [decodeRune, h1, if_false, h2, h3, h4, and_self, if_true] at h
            omega
          | [_] =>
            simp only [decodeRune, h1, if_false, h2, h3, h4, and_self, if_true] at h
            omega
          | [_, _] =>
            simp only [decodeRune, h1, if_false, h2, h3, h4, and_self, if_true] at h
            omega
          | b1 :: b2 :: b3 :: r =>
            by_cases hc : (acceptSecond b0.toNat b1 && isCont b2 && isCont b3) = true
            · have hc2 := hc
              rw [Bool.and_eq_true, Bool.and_eq_true] at hc2
              have hb1 := acceptSecond_bounds _ _ hc2.1.1
              have hb2 := isCont_bounds b2 hc2.1.2
              have hb3 := isCont_bounds b3 hc2.2
              simp only [decodeRune, h1, if_false, h2, h3, h4, and_self, if_true, hc] at h
              rw [toNat_ofNat_char _ (by omega)] at h
              omega
            · simp only [decodeRune, h1, if_false, h2, h3, h4, and_self, if_true, hc] at h
              simp at h
              omega
        · simp only [decodeRune, h1, if_false, h2, h3, h4] at h
          omega

theorem mem_runesFrom_small (b : List UInt8) : ∀ (skip : Nat) (c : Char),
    c ∈ runesFrom skip b → c.toNat < 128 → ∃ x ∈ b, x.toNat = c.toNat := by
  induction b with
  | nil => intro skip c h; cases skip <;> simp [runesFrom] at h
  | cons b0 bs ih =>
    intro skip c h hc
    cases skip with
    | zero =>
      rw [runesFrom] at h
      rcases List.mem_cons.mp h with e | e
      · rw [e] at hc ⊢
        exact ⟨b0, by simp, (decodeRune_small b0 bs hc).symm⟩
      · obtain ⟨x, hx, hxc⟩ := ih _ c e hc
        exact ⟨x, by simp [hx], hxc⟩
    | succ k =>
      rw [runesFrom] at h
      obtain ⟨x, hx, hxc⟩ := ih _ c h hc
      exact ⟨x, by simp [hx], hxc⟩

theorem not_mem_runes (b : List UInt8) (c : Char) (hc : c.toNat < 128)
    (h : UInt8.ofNat c.toNat ∉ b) : c ∉ runes b := by
  intro hm
  obtain ⟨x, hx, hxc⟩ := mem_runesFrom_small b 0 c hm hc
  have : x = UInt8.ofNat c.toNat := by
    apply UInt8.ext_iff.mpr
    rw [hxc, toNat_ofNat_byte _ (by omega)]
  rw [this] at hx
  exact h hx

theorem glob2regexBytes_eq (b : List UInt8) :
    glob2regexBytes b = some (String.mk (translateRunes (runes b))) :=
  glob2regex_eq _

theorem glob2regexBytes_utf8 (s : String) : glob2regexBytes (utf8 s.toList) = glob2regex s := by
  unfold glob2regexBytes
  rw [runes_utf8]
  rfl

/-! ## The claims -/

/-- C1: a leading `**` translates to `.*` and a leading `*` that is not followed
by another `*` translates to `[^/]*`, in both cases followed by the translation of
the rest; in particular `*` gives `[^/]*` and `**` gives `.*`. -/
theorem glob2regex_star :
    (∀ s : String, ∃ r, glob2regex s = some r ∧
        glob2regex ("**" ++ s) = some (".*" ++ r)) ∧
    (∀ s : String, HasPrefix s "*" = false → ∃ r, glob2regex s = some r ∧
        glob2regex ("*" ++ s) = some ("[^/]*" ++ r)) ∧
    glob2regex "*" = some "[^/]*" ∧ glob2regex "**" = some ".*" := by
  refine ⟨fun s => ⟨_, glob2regex_eq s, glob2regex_append_stars s⟩,
    fun s h => ⟨_, glob2regex_eq s, glob2regex_append_star s h⟩, ?_, ?_⟩
  · have := glob2regex_append_star "" (by decide)
    simpa [translateRunes_nil] using this
  · have := glob2regex_append_stars ""
    simpa [translateRunes_nil] using this

theorem glob2regex_star_witness :
    HasPrefix "a*" "*" = false ∧ ∃ r, glob2regex "a*" = some r ∧
      glob2regex ("*" ++ "a*") = some ("[^/]*" ++ r) :=
  ⟨by decide, glob2regex_star.2.1 "a*" (by decide)⟩

/-- C2: on a glob that contains neither `*` nor `[`, `glob2regex` returns the
concatenation, in order, of the per-character images: `?` gives `[^/]`, each of
the marks `/()]{}+-|^$\.&~#` and the space gets a backslash in front, and every
other character is kept; in particular `?` alone gives `[^/]`. -/
theorem glob2regex_plain :
    (∀ g : String, '*' ∉ g.toList → '[' ∉ g.toList →
      glob2regex g = some (String.mk (g.toList.flatMap charImage))) ∧
    glob2regex "?" = some "[^/]" := by
  refine ⟨fun g h1 h2 => ?_, ?_⟩
  · rw [glob2regex_eq, translateRunes_plain g.toList h1 h2]
  · rw [glob2regex_eq, translateRunes_plain "?".toList (by decide) (by decide)]
    rfl

theorem glob2regex_plain_witness :
    '*' ∉ "a?/b c.d".toList ∧ '[' ∉ "a?/b c.d".toList ∧
    glob2regex "a?/b c.d" = some (String.mk ("a?/b c.d".toList.flatMap charImage)) ∧
      String.mk ("a?/b c.d".toList.flatMap charImage) = "a[^/]\\/b\\ c\\.d" :=
  ⟨by decide, by decide, glob2regex_plain.1 "a?/b c.d" (by decide) (by decide), by decide⟩

/-- C3: a bracket expression whose body contains no `]` is translated to the
body wrapped in `[` and `]`, where a leading `!` of the body is replaced by `^`
and then every backslash is doubled, followed by the translation of the rest;
nothing else in the body is changed, so a body without a leading `!` and without
backslash is written as it is. For instance `*.[ch]` gives `[^/]*\.[ch]`,
`[a\b]` gives `[a\\b]` and `[!\]x` gives `[^\\]x`. -/
theorem glob2regex_bracket_body :
    (∀ body rest : String, ']' ∉ body.toList → ∃ r, glob2regex rest = some r ∧
      glob2regex ("[" ++ body ++ "]" ++ rest)
        = some ("[" ++ String.mk (doubleBackslashes (negateLead body.toList)) ++ "]" ++ r)) ∧
    (∀ body : List Char, body.head? ≠ some '!' → '\\' ∉ body →
      doubleBackslashes (negateLead body) = body) ∧
    glob2regex "*.[ch]" = some "[^/]*\\.[ch]" ∧
    glob2regex "[a\\b]" = some "[a\\\\b]" ∧
    glob2regex "[!\\]x" = some "[^\\\\]x" ∧
    glob2regex "[\\\\!]" = some "[\\\\\\\\!]" ∧
    doubleBackslashes "a\\b\\".toList = "a\\\\b\\\\".toList ∧
    negateLead "!a!".toList = "^a!".toList := by
  refine ⟨fun body rest h => ⟨_, glob2regex_eq rest, ?_⟩,
    fun body h1 h2 => ?_, ?_, ?_, ?_, ?_, by decide, by decide⟩
  · rw [glob2regex_bracket body rest h, replaceAllBackslash_eq_doubleBackslashes]
  · rw [negateLead_of_head body h1, doubleBackslashes_of_not_mem body h2]
  all_goals
    rw [glob2regex_eq]
    simp [translateRunes_cons, translateRunes_nil, escapeRune, containsRune, escapeSet,
      replaceAllBackslash, negateLead]

theorem glob2regex_bracket_body_witness :
    (']' ∉ "!a\\b".toList ∧ ∃ r, glob2regex "c" = some r ∧
      glob2regex ("[" ++ "!a\\b" ++ "]" ++ "c")
        = some ("[" ++ String.mk (doubleBackslashes (negateLead "!a\\b".toList)) ++ "]" ++ r)) ∧
    String.mk (doubleBackslashes (negateLead "!a\\b".toList)) = "^a\\\\b" ∧
    ("ch".toList.head? ≠ some '!' ∧ '\\' ∉ "ch".toList ∧
      doubleBackslashes (negateLead "ch".toList) = "ch".toList) :=
  ⟨⟨by decide, glob2regex_bracket_body.1 "!a\\b" "c" (by decide)⟩, by decide,
    by decide, by decide, glob2regex_bracket_body.2.1 "ch".toList (by decide) (by decide)⟩

/-- C4: an open bracket with no `]` anywhere after it is written as the escaped
literal `\[`, and the rest of the input is translated as usual, not consumed;
for instance `[` gives `\[`. -/
theorem glob2regex_open_bracket :
    (∀ s : String, ']' ∉ s.toList → ∃ r, glob2regex s = some r ∧
      glob2regex ("[" ++ s) = some ("\\[" ++ r)) ∧
    glob2regex "[" = some "\\[" := by
  have key : ∀ s : String, ']' ∉ s.toList →
      glob2regex ("[" ++ s) = some ("\\[" ++ String.mk (translateRunes s.toList)) := by
    intro s h
    have h1 : ("[" ++ s).toList = '[' :: s.toList := rfl
    rw [glob2regex_eq, h1, translateRunes_open _ h]
    congr 1
  refine ⟨fun s h => ⟨_, glob2regex_eq s, key s h⟩, ?_⟩
  have := key "" (by decide)
  simpa [translateRunes_nil] using this

theorem glob2regex_open_bracket_witness :
    ']' ∉ "a*".toList ∧ ∃ r, glob2regex "a*" = some r ∧
      glob2regex ("[" ++ "a*") = some ("\\[" ++ r) :=
  ⟨by decide, glob2regex_open_bracket.1 "a*" (by decide)⟩

/-- C5: at the start of a bracket body whose end is found, the glob negation
marker `!` and the regex marker `^` translate to the same output, and that output
begins with `[^`; both `[!a-z]` and `[^a-z]` give `[^a-z]`. -/
theorem glob2regex_negation :
    (∀ b rest : String, ']' ∉ b.toList →
      glob2regex ("[!" ++ b ++ "]" ++ rest) = glob2regex ("[^" ++ b ++ "]" ++ rest) ∧
      ∃ r, glob2regex ("[!" ++ b ++ "]" ++ rest) = some ("[^" ++ r)) ∧
    glob2regex "[!a-z]" = some "[^a-z]" ∧ glob2regex "[^a-z]" = some "[^a-z]" := by
  have key : ∀ (c : Char) (b rest : String), (c = '!' ∨ c = '^') → ']' ∉ b.toList →
      glob2regex (String.mk ('[' :: c :: b.toList ++ ']' :: rest.toList))
        = some ("[^" ++ String.mk (replaceAllBackslash b.toList ++ ']' ::
            translateRunes rest.toList)) := by
    intro c b rest hc h
    have hb : ']' ∉ c :: b.toList := by
      intro e
      rcases List.mem_cons.mp e with e | e
      · rcases hc with hc | hc <;> rw [hc] at e <;> exact absurd e (by decide)
      · exact h e
    rw [glob2regex_eq]
    have h1 : (String.mk ('[' :: c :: b.toList ++ ']' :: rest.toList)).toList
        = '[' :: ((c :: b.toList) ++ ']' :: rest.toList) := rfl
    rw [h1, translateRunes_bracket _ _ hb]
    congr 1
    apply String.ext
    rcases hc with hc | hc <;>
      simp [hc, negateLead, replaceAllBackslash, String.data_append]
  have e1 : ∀ b rest : String, "[!" ++ b ++ "]" ++ rest
      = String.mk ('[' :: '!' :: b.toList ++ ']' :: rest.toList) := by
    intro b rest
    apply String.ext
    simp [String.data_append]
  have e2 : ∀ b rest : String, "[^" ++ b ++ "]" ++ rest
      = String.mk ('[' :: '^' :: b.toList ++ ']' :: rest.toList) := by
    intro b rest
    apply String.ext
    simp [String.data_append]
  refine ⟨fun b rest h => ⟨?_, ?_⟩, ?_, ?_⟩
  · rw [e1, e2, key '!' b rest (Or.inl rfl) h, key '^' b rest (Or.inr rfl) h]
  · exact ⟨_, by rw [e1, key '!' b rest (Or.inl rfl) h]⟩
  · rw [glob2regex_eq]
    simp [translateRunes_cons, translateRunes_nil, replaceAllBackslash, negateLead]
  · rw [glob2regex_eq]
    simp [translateRunes_cons, translateRunes_nil, replaceAllBackslash, negateLead]

theorem glob2regex_negation_witness :
    ']' ∉ "a-z".toList ∧
      glob2regex ("[!" ++ "a-z" ++ "]" ++ "*") = glob2regex ("[^" ++ "a-z" ++ "]" ++ "*") ∧
      ∃ r, glob2regex ("[!" ++ "a-z" ++ "]" ++ "*") = some ("[^" ++ r) :=
  ⟨by decide, glob2regex_negation.1 "a-z" "*" (by decide)⟩

/-- C6: `glob2regex` is total: on every input the scan ends and returns a string,
and no index expression, store or slice of the loop is out of range (which this
model would report as `none`); in particular on the empty string, on a trailing
`*`, on a trailing `[` and on `[]`. -/
theorem glob2regex_total :
    (∀ g : String, ∃ r, glob2regex g = some r) ∧
    glob2regex "" = some "" ∧ glob2regex "a*" = some "a[^/]*" ∧
    glob2regex "a[" = some "a\\[" ∧ glob2regex "[]" = some "[]" := by
  refine ⟨fun g => ⟨_, glob2regex_eq g⟩, ?_, ?_, ?_, ?_⟩ <;>
  · rw [glob2regex_eq]
    simp [translateRunes_cons, translateRunes_nil, escapeRune, containsRune, escapeSet,
      replaceAllBackslash, negateLead]

/-- C7: in both modes and for every match predicate, an argument that begins
with `-`, is neither `-` nor `--`, and stands before the first `--` is forwarded
and not skipped, whether or not it matches: the forwarded list is what the
arguments before it forwarded, then the argument, then what the arguments after it
forward, and the skipped list has only what the arguments before and after it
skipped. For `--verbose -- --verbose` with a predicate matching `--verbose`,
reject-list mode forwards `--verbose --` and skips only the third token. -/
theorem flag_before_separator :
    (∀ (m : String → Bool) (pre : List String) (a : String) (post : List String),
      "--" ∉ pre → HasPrefix a "-" = true → a ≠ "-" → a ≠ "--" →
      ((blacklist m (pre ++ a :: post)).fnames
          = (blacklist m pre).fnames ++ a :: (blacklist m post).fnames ∧
        (blacklist m (pre ++ a :: post)).skipped
          = (blacklist m pre).skipped ++ (blacklist m post).skipped) ∧
      ((whitelist m (pre ++ a :: post)).fnames
          = (whitelist m pre).fnames ++ a :: (whitelist m post).fnames ∧
        (whitelist m (pre ++ a :: post)).skipped
          = (whitelist m pre).skipped ++ (whitelist m post).skipped)) ∧
    blacklist (fun x => x == "--verbose") ["--verbose", "--", "--verbose"]
      = { ddash := true, fnames := ["--verbose", "--"], skipped := ["--verbose"] } := by
  refine ⟨fun m pre a post hpre hflag h1 h2 => ⟨?_, ?_⟩, by decide⟩
  · rw [blacklist_flag m pre a post hpre hflag h1 h2]
    simp [after, proc]
  · rw [whitelist_flag m pre a post hpre hflag h1 h2]
    simp [after, proc]

theorem flag_before_separator_witness :
    "--" ∉ ["x", "-"] ∧ HasPrefix "-rf" "-" = true ∧ "-rf" ≠ "-" ∧ "-rf" ≠ "--" ∧
    ((blacklist (fun _ => true) (["x", "-"] ++ "-rf" :: ["--", "-rf"])).fnames
        = (blacklist (fun _ => true) ["x", "-"]).fnames
            ++ "-rf" :: (blacklist (fun _ => true) ["--", "-rf"]).fnames ∧
      (blacklist (fun _ => true) (["x", "-"] ++ "-rf" :: ["--", "-rf"])).skipped
        = (blacklist (fun _ => true) ["x", "-"]).skipped
            ++ (blacklist (fun _ => true) ["--", "-rf"]).skipped) ∧
    ((whitelist (fun _ => false) (["x", "-"] ++ "-rf" :: ["--", "-rf"])).fnames
        = (whitelist (fun _ => false) ["x", "-"]).fnames
            ++ "-rf" :: (whitelist (fun _ => false) ["--", "-rf"]).fnames ∧
      (whitelist (fun _ => false) (["x", "-"] ++ "-rf" :: ["--", "-rf"])).skipped
        = (whitelist (fun _ => false) ["x", "-"]).skipped
            ++ (whitelist (fun _ => false) ["--", "-rf"]).skipped) :=
  ⟨by decide, by decide, by decide, by decide,
    (flag_before_separator.1 (fun _ => true) ["x", "-"] "-rf" ["--", "-rf"]
      (by decide) (by decide) (by decide) (by decide)).1,
    (flag_before_separator.1 (fun _ => false) ["x", "-"] "-rf" ["--", "-rf"]
      (by decide) (by decide) (by decide) (by decide)).2⟩

/-- C8: for every argument list, match predicate and mode, no `--` is skipped,
the forwarded list holds exactly as many `--` as the input, and the whole result
is the same for two predicates that differ only in their value on `--`. -/
theorem separator_always_forwarded :
    (∀ (m : String → Bool) (args : List String),
      ("--" ∉ (blacklist m args).skipped ∧
        (blacklist m args).fnames.count "--" = args.count "--") ∧
      ("--" ∉ (whitelist m args).skipped ∧
        (whitelist m args).fnames.count "--" = args.count "--")) ∧
    (∀ (m m' : String → Bool) (args : List String), (∀ a, a ≠ "--" → m a = m' a) →
      blacklist m args = blacklist m' args ∧ whitelist m args = whitelist m' args) := by
  refine ⟨fun m args => ⟨?_, ?_⟩, fun m m' args h => ⟨?_, ?_⟩⟩
  · have := foldl_sep (blacklistBody m) (blacklistBody_sep m) args start (by simp [start])
    simpa [blacklist, blacklistLoop, start] using this
  · have := foldl_sep (whitelistBody m) (whitelistBody_sep m) args start (by simp [start])
    simpa [whitelist, whitelistLoop, start] using this
  · have e : blacklistBody m = blacklistBody m' :=
      funext fun st => funext fun a => blacklistBody_congr m m' h st a
    simp [blacklist, blacklistLoop, e]
  · have e : whitelistBody m = whitelistBody m' :=
      funext fun st => funext fun a => whitelistBody_congr m m' h st a
    simp [whitelist, whitelistLoop, e]

theorem separator_always_forwarded_witness :
    (∀ a : String, a ≠ "--" → (fun x => x == "f") a = (fun x => x == "f" || x == "--") a) ∧
    blacklist (fun x => x == "f") ["--", "f", "--"]
      = blacklist (fun x => x == "f" || x == "--") ["--", "f", "--"] ∧
    whitelist (fun x => x == "f") ["--", "f", "--"]
      = whitelist (fun x => x == "f" || x == "--") ["--", "f", "--"] :=
  ⟨fun a ha => by simp [ha],
    separator_always_forwarded.2 (fun x => x == "f") (fun x => x == "f" || x == "--")
      ["--", "f", "--"] (fun a ha => by simp [ha])⟩

/-- C9: the separator flag is irreversible: in an argument list of the form
`pre ++ ["--"] ++ post`, every argument of `post` other than `--` is tested under
the active mode, dash-prefixed or not: in reject-list mode it is forwarded iff it
does not match, in accept-list mode iff it matches, and every later `--` is
forwarded; nothing in `post` brings the flag protection back. -/
theorem separator_irreversible (m : String → Bool) (pre post : List String) :
    ((blacklist m (pre ++ ["--"] ++ post)).fnames
        = (blacklist m pre).fnames ++ "--" :: post.filter (fun a => a == "--" || !m a) ∧
      (blacklist m (pre ++ ["--"] ++ post)).skipped
        = (blacklist m pre).skipped ++ post.filter (fun a => a != "--" && m a)) ∧
    ((whitelist m (pre ++ ["--"] ++ post)).fnames
        = (whitelist m pre).fnames ++ "--" :: post.filter (fun a => a == "--" || m a) ∧
      (whitelist m (pre ++ ["--"] ++ post)).skipped
        = (whitelist m pre).skipped ++ post.filter (fun a => a != "--" && !m a)) := by
  constructor
  · have e : blacklist m (pre ++ ["--"] ++ post)
        = blacklistLoop m (proc { blacklist m pre with ddash := true } "--") post := by
      unfold blacklist
      rw [blacklistLoop_append, blacklistLoop_append]
      simp [blacklistLoop, blacklistBody]
    rw [e, blacklistLoop_seen m post _ (by simp [proc])]
    simp [proc]
  · have e : whitelist m (pre ++ ["--"] ++ post)
        = whitelistLoop m (proc { whitelist m pre with ddash := true } "--") post := by
      unfold whitelist
      rw [whitelistLoop_append, whitelistLoop_append]
      simp [whitelistLoop, whitelistBody]
    rw [e, whitelistLoop_seen m post _ (by simp [proc])]
    simp [proc]

/-- C10: the argument `-` is tested against the matcher set at every position,
whether or not `--` came before it: in reject-list mode it is skipped iff the
predicate matches `-`, in accept-list mode iff the predicate does not match `-`,
and otherwise it is forwarded; the arguments before and after it contribute what
they would contribute anyway. -/
theorem single_dash_tested :
    (∀ (m : String → Bool) (pre post : List String),
      ((blacklist m (pre ++ "-" :: post)).fnames
          = (blacklist m pre).fnames ++ (if m "-" then [] else ["-"])
              ++ (blacklistLoop m (fresh (blacklist m pre)) post).fnames ∧
        (blacklist m (pre ++ "-" :: post)).skipped
          = (blacklist m pre).skipped ++ (if m "-" then ["-"] else [])
              ++ (blacklistLoop m (fresh (blacklist m pre)) post).skipped) ∧
      ((whitelist m (pre ++ "-" :: post)).fnames
          = (whitelist m pre).fnames ++ (if m "-" then ["-"] else [])
              ++ (whitelistLoop m (fresh (whitelist m pre)) post).fnames ∧
        (whitelist m (pre ++ "-" :: post)).skipped
          = (whitelist m pre).skipped ++ (if m "-" then [] else ["-"])
              ++ (whitelistLoop m (fresh (whitelist m pre)) post).skipped)) ∧
    blacklist (fun x => x == "-") ["-", "--", "-"]
      = { ddash := true, fnames := ["--"], skipped := ["-", "-"] } ∧
    whitelist (fun x => x == "-") ["-", "--", "-"]
      = { ddash := true, fnames := ["-", "--", "-"], skipped := [] } ∧
    blacklist (fun _ => false) ["-", "--", "-"]
      = { ddash := true, fnames := ["-", "--", "-"], skipped := [] } ∧
    whitelist (fun _ => false) ["-", "--", "-"]
      = { ddash := true, fnames := ["--"], skipped := ["-", "-"] } := by
  refine ⟨fun m pre post => ⟨?_, ?_⟩, by decide, by decide, by decide, by decide⟩
  · rw [blacklist_dash]
    by_cases hm : m "-" = true <;> simp [after, skip, proc, hm]
  · rw [whitelist_dash]
    by_cases hm : m "-" = true <;> simp [after, skip, proc, hm]

/-- C11: the two modes are complements on the same predicate: the whitelist
loop with `m` ends in the same state, with the same forwarded and skipped lists,
as the blacklist loop with the negated predicate; so a single argument that does
not begin with `-` is skipped in reject-list mode iff it is forwarded in
accept-list mode. -/
theorem modes_complementary :
    (∀ (m : String → Bool) (args : List String),
      whitelist m args = blacklist (fun a => !m a) args) ∧
    (∀ (m : String → Bool) (a : String), HasPrefix a "-" = false →
      (a ∈ (blacklist m [a]).skipped ↔ a ∈ (whitelist m [a]).fnames)) := by
  refine ⟨whitelist_eq_blacklist, fun m a h => ?_⟩
  have h1 : a ≠ "-" := by
    intro e
    rw [e] at h
    exact absurd h (by decide)
  have h2 : a ≠ "--" := by
    intro e
    rw [e] at h
    exact absurd h (by decide)
  by_cases hm : m a = true <;>
    simp [blacklist, whitelist, blacklistLoop, whitelistLoop, blacklistBody, whitelistBody,
      start, proc, skip, h, h1, h2, hm]

theorem modes_complementary_witness :
    HasPrefix "a.txt" "-" = false ∧
    ("a.txt" ∈ (blacklist (fun x => x == "a.txt") ["a.txt"]).skipped
      ↔ "a.txt" ∈ (whitelist (fun x => x == "a.txt") ["a.txt"]).fnames) :=
  ⟨by decide, modes_complementary.2 (fun x => x == "a.txt") "a.txt" (by decide)⟩

/-- C12: for every argument list, match predicate and mode the classification is
an order-preserving partition: there is one mark per input position such that the
forwarded list is the marked arguments and the skipped list is the unmarked ones,
both in input order; so each list is a subsequence of the input and the two
lengths add up to the length of the input. -/
theorem classification_partition (m : String → Bool) (args : List String) :
    ((∃ mask : List Bool, mask.length = args.length ∧
        (blacklist m args).fnames = forwardedBy mask args ∧
        (blacklist m args).skipped = skippedBy mask args) ∧
      (blacklist m args).fnames.Sublist args ∧ (blacklist m args).skipped.Sublist args ∧
      (blacklist m args).fnames.length + (blacklist m args).skipped.length = args.length) ∧
    ((∃ mask : List Bool, mask.length = args.length ∧
        (whitelist m args).fnames = forwardedBy mask args ∧
        (whitelist m args).skipped = skippedBy mask args) ∧
      (whitelist m args).fnames.Sublist args ∧ (whitelist m args).skipped.Sublist args ∧
      (whitelist m args).fnames.length + (whitelist m args).skipped.length = args.length) := by
  refine ⟨blacklist_partition m args, ?_⟩
  rw [whitelist_eq_blacklist]
  exact blacklist_partition _ args

/-- C13: the closure `match` is a pure disjunction: it returns true iff at least
one matcher of the list returns true on the name, false for the empty list, and
the result is the same for every permutation of the matcher list. -/
theorem matchAny_disjunction :
    (∀ (matchers : List Matcher) (fname : String),
      matchAny matchers fname = true ↔ ∃ mt ∈ matchers, mt fname = true) ∧
    (∀ fname : String, matchAny [] fname = false) ∧
    (∀ (ms ms' : List Matcher) (fname : String), ms.Perm ms' →
      matchAny ms fname = matchAny ms' fname) := by
  refine ⟨fun matchers fname => ?_, fun _ => rfl, fun ms ms' fname h => ?_⟩
  · rw [matchAny_eq_any, List.any_eq_true]
  · rw [matchAny_eq_any, matchAny_eq_any]
    cases hb : ms'.any (fun mt => mt fname)
    · rw [Bool.eq_false_iff] at *
      intro hc
      apply hb
      rw [List.any_eq_true] at *
      obtain ⟨mt, hmt, ht⟩ := hc
      exact ⟨mt, h.mem_iff.mp hmt, ht⟩
    · rw [List.any_eq_true] at *
      obtain ⟨mt, hmt, ht⟩ := hb
      exact ⟨mt, h.mem_iff.mpr hmt, ht⟩

theorem matchAny_disjunction_witness :
    [(fun x => x == "a"), (fun x => x == "b")].Perm
      [(fun x => x == "b"), (fun x : String => x == "a")] ∧
    matchAny [(fun x => x == "a"), (fun x => x == "b")] "b"
      = matchAny [(fun x => x == "b"), (fun x => x == "a")] "b" :=
  ⟨List.Perm.swap _ _ _,
    matchAny_disjunction.2.2 _ _ "b" (List.Perm.swap _ _ _)⟩

/-- C14, the claim as stated fails: with a predicate that matches everything,
reject-list mode forwards the matching flag `-rf` and skips nothing, and with a
predicate that matches nothing, accept-list mode forwards the flag `-rf` that
does not match. -/
theorem skipped_exactly_matching_counterexample :
    ¬ ((blacklist (fun _ => true) ["-rf"]).skipped = ["-rf"].filter (fun _ => true)) ∧
    blacklist (fun _ => true) ["-rf"] = { ddash := false, fnames := ["-rf"], skipped := [] } ∧
    ¬ ((whitelist (fun _ => false) ["-rf"]).fnames = ["-rf"].filter (fun _ => false)) ∧
    whitelist (fun _ => false) ["-rf"] = { ddash := false, fnames := ["-rf"], skipped := [] } := by
  decide

/-- C14, amended: the arguments are classified by the match predicate except
where the loop protects them. Before the first `--` a flag-like token (one that
begins with `-` and is not `-`) is always forwarded, and every `--` is always
forwarded. Among the other arguments, reject-list mode skips exactly those that
match and forwards the rest, and accept-list mode forwards exactly those that
match and skips the rest. -/
theorem classification_by_match (m : String → Bool) (args : List String) :
    ((blacklist m args).skipped
        = (beforeSeparator args).filter (fun a => !isFlag a && m a)
          ++ (fromSeparator args).filter (fun a => a != "--" && m a) ∧
      (blacklist m args).fnames
        = (beforeSeparator args).filter (fun a => isFlag a || !m a)
          ++ (fromSeparator args).filter (fun a => a == "--" || !m a)) ∧
    ((whitelist m args).fnames
        = (beforeSeparator args).filter (fun a => isFlag a || m a)
          ++ (fromSeparator args).filter (fun a => a == "--" || m a) ∧
      (whitelist m args).skipped
        = (beforeSeparator args).filter (fun a => !isFlag a && !m a)
          ++ (fromSeparator args).filter (fun a => a != "--" && !m a)) :=
  ⟨⟨(blacklist_split m args).2, (blacklist_split m args).1⟩, whitelist_split m args⟩

/-- C15, the claim as stated fails: a tab outside a bracket expression is
written as it is, without a backslash in front; so are a newline and a carriage
return. -/
theorem whitespace_escaped_counterexample :
    glob2regex "\t" = some "\t" ∧ glob2regex "\t" ≠ some "\\\t" ∧
    glob2regex "\n" = some "\n" ∧ glob2regex "\r" = some "\r" := by
  have e : ∀ c : Char, c ≠ '?' → c ≠ '*' → c ≠ '[' →
      glob2regex (String.singleton c) = some (String.mk (escapeRune c)) := by
    intro c h1 h2 h3
    have e1 : (String.singleton c).toList = [c] := rfl
    rw [glob2regex_eq, e1, translateRunes_default c [] h1 h2 h3, translateRunes_nil]
    simp
  have ht := e '\t' (by decide) (by decide) (by decide)
  have hn := e '\n' (by decide) (by decide) (by decide)
  have hr := e '\r' (by decide) (by decide) (by decide)
  rw [escapeRune_tab] at ht
  rw [escapeRune_newline] at hn
  rw [escapeRune_return] at hr
  refine ⟨ht, ?_, hn, hr⟩
  have ht2 : glob2regex "\t" = some "\t" := ht
  rw [ht2]
  decide

/-- C15, amended: of the whitespace characters only the space is escaped. When
a space stands in a glob outside a bracket expression, that is at a position
where a step of the left-to-right scan starts, `glob2regex` writes a backslash
and the space there; for a tab, a newline or a carriage return at such a position
it writes that character alone. What it writes before is the translation of the
glob up to that position and what it writes after is the translation of the
rest. -/
theorem whitespace_escaping :
    (∀ (pre post : String) (c : Char), c = ' ' ∨ c = '\t' ∨ c = '\n' ∨ c = '\r' →
      scannedAt (pre.toList ++ c :: post.toList) pre.toList.length = true →
      ∃ q r, glob2regex pre = some q ∧ glob2regex post = some r ∧
        glob2regex (pre ++ String.singleton c ++ post)
          = some (q ++ (if c = ' ' then "\\ " else String.singleton c) ++ r)) ∧
    (∀ (pat : Array Char) (pre cs : List Char) (ans : String) (c : Char),
      pat.toList = pre ++ c :: cs → c = ' ' ∨ c = '\t' ∨ c = '\n' ∨ c = '\r' →
      ∃ r, glob2regex (String.mk cs) = some r ∧
        loop pat.size pat pre.length ans
          = some (ans ++ (if c = ' ' then "\\ " else String.singleton c) ++ r)) ∧
    (glob2regex " " = some "\\ " ∧ glob2regex "a b" = some "a\\ b" ∧
      glob2regex "[a] b" = some "[a]\\ b" ∧ glob2regex "* b" = some "[^/]*\\ b" ∧
      glob2regex "** b" = some ".*\\ b" ∧ glob2regex "? b" = some "[^/]\\ b" ∧
      glob2regex "[ b" = some "\\[\\ b" ∧ glob2regex "[a]\tb" = some "[a]\tb" ∧
      glob2regex "*\tb" = some "[^/]*\tb" ∧ glob2regex "a\nb" = some "a\nb" ∧
      glob2regex "a\rb" = some "a\rb" ∧ glob2regex "[ ]" = some "[ ]" ∧
      glob2regex "[a b] c" = some "[a b]\\ c") := by
  have key : ∀ c : Char, c = ' ' ∨ c = '\t' ∨ c = '\n' ∨ c = '\r' →
      (c ≠ '?' ∧ c ≠ '*' ∧ c ≠ '[') ∧
      String.mk (escapeRune c) = (if c = ' ' then "\\ " else String.singleton c) := by
    intro c hc
    rcases hc with hc | hc | hc | hc <;> subst hc
    · exact ⟨by decide, by rw [escapeRune_space]; rfl⟩
    · exact ⟨by decide, by rw [escapeRune_tab]; rfl⟩
    · exact ⟨by decide, by rw [escapeRune_newline]; rfl⟩
    · exact ⟨by decide, by rw [escapeRune_return]; rfl⟩
  refine ⟨?_, ?_, ?_⟩
  · intro pre post c hc hs
    obtain ⟨⟨h1, h2, h3⟩, he⟩ := key c hc
    refine ⟨_, _, glob2regex_eq pre, glob2regex_eq post, ?_⟩
    rw [glob2regex_scanned pre post c hs h1 h2 h3, he]
  · intro pat pre cs ans c h hc
    obtain ⟨⟨h1, h2, h3⟩, he⟩ := key c hc
    refine ⟨_, glob2regex_eq (String.mk cs), ?_⟩
    rw [loop_at pat pre cs c ans h h1 h2 h3, he]
    rfl
  · refine ⟨?_, ?_, ?_, ?_, ?_, ?_, ?_, ?_, ?_, ?_, ?_, ?_, ?_⟩ <;>
    · rw [glob2regex_eq]
      simp [translateRunes_cons, translateRunes_nil, escapeRune, containsRune, escapeSet,
        replaceAllBackslash, negateLead]

theorem whitespace_escaping_witness :
    (('\t' = ' ' ∨ '\t' = '\t' ∨ '\t' = '\n' ∨ '\t' = '\r') ∧
      scannedAt ("[a]*".toList ++ '\t' :: "b[c]".toList) "[a]*".toList.length = true) ∧
    (∃ q r, glob2regex "[a]*" = some q ∧ glob2regex "b[c]" = some r ∧
      glob2regex ("[a]*" ++ String.singleton '\t' ++ "b[c]")
        = some (q ++ (if '\t' = ' ' then "\\ " else String.singleton '\t') ++ r)) ∧
    scannedAt "[a] b".toList 3 = true ∧ scannedAt "[ ]".toList 1 = false ∧
    scannedAt "[ b".toList 1 = true ∧ scannedAt "** b".toList 2 = true :=
  ⟨⟨by decide, by decide⟩,
    whitespace_escaping.1 "[a]*" "b[c]" '\t' (by decide) (by decide),
    by decide, by decide, by decide, by decide⟩

/-- C17, the claim as stated fails: with the unrecognized syntax value `bogus`
and an empty list file no matcher is built, nothing aborts, and the argument `a`
is classified and forwarded. -/
theorem unknown_matcher_counterexample :
    main
      { home := some "/home/u", join := fun a b => a ++ "/" ++ b, abs := fun x => x,
        compile := fun _ => none, lines := fun _ => some [] }
      { command := "rm", matcher := "bogus", mode := "blacklist",
        blacklist := "/etc/skip-rm/blacklist", whitelist := "" }
      ["a"]
      = Except.ok { ddash := false, fnames := ["a"], skipped := [] } := by
  rfl

/-- C17, amended: an unrecognized matching-syntax value is fatal when the first
pattern is built. For every syntax value other than `string`, `glob` and `regex`,
building a matcher fails on every pattern; so for every list file with at least
one line, building the matcher set fails and the run aborts before any argument is
classified. For an empty list file no matcher is built: the matcher set is empty
and the run goes on with a predicate that matches nothing. -/
theorem unknown_matcher_fatal (env : Env) (conf : Conf)
    (h1 : conf.matcher ≠ "string") (h2 : conf.matcher ≠ "glob")
    (h3 : conf.matcher ≠ "regex") :
    (∀ pattern : String, makeMatcher env conf pattern = Except.error conf.matcher) ∧
    (∀ (list path : String) (ls : List String),
      expanduser env list = Except.ok path → env.lines path = some ls →
      (ls ≠ [] → makeMatchers env conf list = Except.error conf.matcher) ∧
      (ls = [] → makeMatchers env conf list = Except.ok [])) ∧
    (∀ (args : List String) (path : String) (ls : List String),
      conf.mode = "blacklist" →
      expanduser env conf.blacklist = Except.ok path → env.lines path = some ls →
      (ls ≠ [] → main env conf args = Except.error conf.matcher) ∧
      (ls = [] → main env conf args = Except.ok (blacklist (matchAny []) args))) ∧
    (∀ (args : List String) (path : String) (ls : List String),
      conf.mode = "whitelist" →
      expanduser env conf.whitelist = Except.ok path → env.lines path = some ls →
      (ls ≠ [] → main env conf args = Except.error conf.matcher) ∧
      (ls = [] → main env conf args = Except.ok (whitelist (matchAny []) args))) := by
  refine ⟨fun pattern => makeMatcher_unknown env conf pattern h1 h2 h3,
    fun list path ls hp hl => makeMatchers_unknown env conf list path ls h1 h2 h3 hp hl,
    fun args path ls hm hp hl => ?_, fun args path ls hm hp hl => ?_⟩
  · obtain ⟨ha, hb⟩ := makeMatchers_unknown env conf conf.blacklist path ls h1 h2 h3 hp hl
    constructor
    · intro hne
      simp [main, hm, ha hne]
    · intro he
      simp [main, hm, hb he]
  · obtain ⟨ha, hb⟩ := makeMatchers_unknown env conf conf.whitelist path ls h1 h2 h3 hp hl
    constructor
    · intro hne
      simp [main, hm, ha hne]
    · intro he
      simp [main, hm, hb he]

theorem unknown_matcher_fatal_witness :
    ("bogus" ≠ "string" ∧ "bogus" ≠ "glob" ∧ "bogus" ≠ "regex") ∧
    main
      { home := some "/home/u", join := fun a b => a ++ "/" ++ b, abs := fun x => x,
        compile := fun _ => none, lines := fun _ => some ["/etc/*"] }
      { command := "rm", matcher := "bogus", mode := "blacklist",
        blacklist := "/etc/skip-rm/blacklist", whitelist := "" }
      ["a"]
      = Except.error "bogus" :=
  ⟨⟨by decide, by decide, by decide⟩,
    ((unknown_matcher_fatal
      { home := some "/home/u", join := fun a b => a ++ "/" ++ b, abs := fun x => x,
        compile := fun _ => none, lines := fun _ => some ["/etc/*"] }
      { command := "rm", matcher := "bogus", mode := "blacklist",
        blacklist := "/etc/skip-rm/blacklist", whitelist := "" }
      (by decide) (by decide) (by decide)).2.2.1 ["a"] "/etc/skip-rm/blacklist" ["/etc/*"]
        rfl rfl rfl).1 (by simp)⟩

/-- C18, the claim as stated fails: `.` is a clean relative path, and with the
home directory `/home/u` the path `~/.` becomes `/home/u`, not `/home/u/.`; with
the home directory `/` the path `~/.local` becomes `/.local`, not `//.local`. -/
theorem expanduser_join_counterexample :
    filepathClean "." = "." ∧
    expanduser
      { home := some "/home/u", join := filepathJoin, abs := fun x => x,
        compile := fun _ => none, lines := fun _ => none }
      ("~/" ++ ".") = Except.ok "/home/u" ∧
    "/home/u" ≠ "/home/u" ++ "/" ++ "." ∧
    HasSuffix "/home/u" ("/" ++ ".") = false ∧
    filepathClean ".local" = ".local" ∧
    expanduser
      { home := some "/", join := filepathJoin, abs := fun x => x,
        compile := fun _ => none, lines := fun _ => none }
      ("~/" ++ ".local") = Except.ok "/.local" ∧
    "/.local" ≠ "/" ++ "/" ++ ".local" := by
  refine ⟨by decide, rfl, by decide, by decide, by decide, rfl, by decide⟩

/-- C18, amended: `expanduser` expands only the tilde of the current user. With
the home directory `h`, the path `~` becomes `h`, and a path `~/rest` becomes
`filepath.Join(h, rest)`, the cleaned form of `h/rest`. When `h` is an absolute
path `/h1/.../hn` and `rest` a relative path `r1/.../rm`, with at least one
element each and every element a name (not empty, without a slash, neither `.`
nor `..`), as for `.local`, the result is `h/rest`: it begins with `h` and ends
with `/rest`. Every path that is neither `~` nor begins with `~/`, such as
`~other/x` and the empty path, is returned as it is. -/
theorem expanduser_tilde :
    (∀ (env : Env) (h : String), env.home = some h → expanduser env "~" = Except.ok h) ∧
    (∀ (env : Env) (h rest : String), env.home = some h →
      expanduser env ("~/" ++ rest) = Except.ok (env.join h rest)) ∧
    (∀ (env : Env) (hs rs : List (List Char)),
      env.join = filepathJoin → env.home = some (String.mk ('/' :: joinSlash hs)) →
      hs ≠ [] → rs ≠ [] → hs.all isName = true → rs.all isName = true →
      expanduser env ("~/" ++ String.mk (joinSlash rs))
        = Except.ok (String.mk ('/' :: joinSlash hs) ++ "/" ++ String.mk (joinSlash rs)) ∧
      HasPrefix (String.mk ('/' :: joinSlash hs) ++ "/" ++ String.mk (joinSlash rs))
        (String.mk ('/' :: joinSlash hs)) = true ∧
      HasSuffix (String.mk ('/' :: joinSlash hs) ++ "/" ++ String.mk (joinSlash rs))
        ("/" ++ String.mk (joinSlash rs)) = true) ∧
    (∀ (env : Env) (path : String), path ≠ "~" → HasPrefix path "~/" = false →
      expanduser env path = Except.ok path) ∧
    (∀ env : Env, expanduser env "~other/x" = Except.ok "~other/x" ∧
      expanduser env "" = Except.ok "") ∧
    (expanduser
        { home := some "/home/u", join := filepathJoin, abs := fun x => x,
          compile := fun _ => none, lines := fun _ => none }
        "~/.local" = Except.ok "/home/u/.local" ∧
      expanduser
        { home := some "/root", join := filepathJoin, abs := fun x => x,
          compile := fun _ => none, lines := fun _ => none }
        "~/.local" = Except.ok "/root/.local" ∧
      expanduser
        { home := some "/home/u/", join := filepathJoin, abs := fun x => x,
          compile := fun _ => none, lines := fun _ => none }
        "~/a//b/../c" = Except.ok "/home/u/a/c") := by
  refine ⟨expanduser_home, expanduser_join,
    fun env hs rs hj hh h1 h2 hn1 hn2 => ⟨?_, ?_, ?_⟩,
    expanduser_other, fun env => ⟨?_, ?_⟩, ⟨rfl, rfl, rfl⟩⟩
  · rw [expanduser_join env _ _ hh, hj, filepathJoin_names hs rs h1 h2 hn1 hn2]
  · rw [String.append_assoc]
    exact hasPrefix_append _ _
  · rw [String.append_assoc]
    exact hasSuffix_append _ _
  · exact expanduser_other env "~other/x" (by decide) (by decide)
  · exact expanduser_other env "" (by decide) (by decide)

theorem expanduser_tilde_witness :
    ((["home".toList, "u".toList] : List (List Char)) ≠ [] ∧
      ([".local".toList] : List (List Char)) ≠ [] ∧
      ["home".toList, "u".toList].all isName = true ∧
      [".local".toList].all isName = true) ∧
    expanduser
      { home := some "/home/u", join := filepathJoin, abs := fun x => x,
        compile := fun _ => none, lines := fun _ => none }
      ("~/" ++ String.mk (joinSlash [".local".toList]))
      = Except.ok (String.mk ('/' :: joinSlash ["home".toList, "u".toList]) ++ "/"
          ++ String.mk (joinSlash [".local".toList])) ∧
    String.mk ('/' :: joinSlash ["home".toList, "u".toList]) ++ "/"
      ++ String.mk (joinSlash [".local".toList]) = "/home/u/.local" :=
  ⟨⟨by decide, by decide, by decide, by decide⟩,
    (expanduser_tilde.2.2.1
      { home := some "/home/u", join := filepathJoin, abs := fun x => x,
        compile := fun _ => none, lines := fun _ => none }
      ["home".toList, "u".toList] [".local".toList] rfl rfl
      (by decide) (by decide) (by decide) (by decide)).1,
    by decide⟩

/-- C19, the claim as stated fails: the Go strings with the bytes `a`, `0xFF`,
`b` and with the bytes of `a`, U+FFFD, `b` are different, contain none of `?`, `*`
and `[`, and have the same translation, so `glob2regex` is not injective on such
strings; and removing the escapes from the translation of the first gives the
second, not the first. -/
theorem escaping_reversible_counterexample :
    ([0x61, 0xFF, 0x62] : List UInt8) ≠ [0x61, 0xEF, 0xBF, 0xBD, 0x62] ∧
    (0x3F ∉ ([0x61, 0xFF, 0x62] : List UInt8) ∧ 0x2A ∉ ([0x61, 0xFF, 0x62] : List UInt8) ∧
      0x5B ∉ ([0x61, 0xFF, 0x62] : List UInt8)) ∧
    (0x3F ∉ ([0x61, 0xEF, 0xBF, 0xBD, 0x62] : List UInt8) ∧
      0x2A ∉ ([0x61, 0xEF, 0xBF, 0xBD, 0x62] : List UInt8) ∧
      0x5B ∉ ([0x61, 0xEF, 0xBF, 0xBD, 0x62] : List UInt8)) ∧
    glob2regexBytes [0x61, 0xFF, 0x62] = glob2regexBytes [0x61, 0xEF, 0xBF, 0xBD, 0x62] ∧
    glob2regexBytes [0x61, 0xFF, 0x62] = some "a\uFFFDb" ∧
    (unescape "a\uFFFDb".toList).map utf8 = some [0x61, 0xEF, 0xBF, 0xBD, 0x62] ∧
    (unescape "a\uFFFDb".toList).map utf8 ≠ some [0x61, 0xFF, 0x62] := by
  have r1 : runes [0x61, 0xFF, 0x62] = "a\uFFFDb".toList := by decide
  have r2 : runes [0x61, 0xEF, 0xBF, 0xBD, 0x62] = "a\uFFFDb".toList := by decide
  have t : translateRunes "a\uFFFDb".toList = "a\uFFFDb".toList := by
    rw [translateRunes_plain _ (by decide) (by decide)]
    decide
  refine ⟨by decide, ⟨by decide, by decide, by decide⟩, ⟨by decide, by decide, by decide⟩,
    ?_, ?_, by decide, by decide⟩
  · rw [glob2regexBytes_eq, glob2regexBytes_eq, r1, r2]
  · rw [glob2regexBytes_eq, r1, t]
    rfl

/-- C19, amended: escaping is reversible on the runes of a glob without `?`, `*`
and `[`: reading the output of `glob2regex` from left to right, dropping each
backslash and keeping the character after it, gives back the rune sequence of the
glob, that is the glob with every byte that is not valid UTF-8 replaced by U+FFFD,
and the reading never meets a backslash with nothing after it. For a glob that is
valid UTF-8 this is exactly the glob, and `glob2regex` is injective on the valid
UTF-8 globs without `?`, `*` and `[`. -/
theorem escaping_reversible :
    (∀ b : List UInt8, 0x3F ∉ b → 0x2A ∉ b → 0x5B ∉ b →
      ∃ r, glob2regexBytes b = some r ∧ unescape r.toList = some (runes b)) ∧
    (∀ b : List UInt8, utf8 (runes b) = b → 0x3F ∉ b → 0x2A ∉ b → 0x5B ∉ b →
      ∃ r, glob2regexBytes b = some r ∧ (unescape r.toList).map utf8 = some b) ∧
    (∀ b b' : List UInt8, utf8 (runes b) = b → utf8 (runes b') = b' →
      0x3F ∉ b → 0x2A ∉ b → 0x5B ∉ b → 0x3F ∉ b' → 0x2A ∉ b' → 0x5B ∉ b' →
      glob2regexBytes b = glob2regexBytes b' → b = b') ∧
    (∀ g : String, utf8 (runes (utf8 g.toList)) = utf8 g.toList ∧
      glob2regexBytes (utf8 g.toList) = glob2regex g) ∧
    (∀ g : String, '?' ∉ g.toList → '*' ∉ g.toList → '[' ∉ g.toList →
      ∃ r, glob2regex g = some r ∧ unescape r.toList = some g.toList) ∧
    (∀ g g' : String, '?' ∉ g.toList → '*' ∉ g.toList → '[' ∉ g.toList →
      '?' ∉ g'.toList → '*' ∉ g'.toList → '[' ∉ g'.toList →
      glob2regex g = glob2regex g' → g = g') := by
  have plain : ∀ b : List UInt8, 0x3F ∉ b → 0x2A ∉ b → 0x5B ∉ b →
      '?' ∉ runes b ∧ '*' ∉ runes b ∧ '[' ∉ runes b := fun b h1 h2 h3 =>
    ⟨not_mem_runes b '?' (by decide) h1, not_mem_runes b '*' (by decide) h2,
      not_mem_runes b '[' (by decide) h3⟩
  have inj : ∀ l l' : List Char, '?' ∉ l → '*' ∉ l → '[' ∉ l →
      '?' ∉ l' → '*' ∉ l' → '[' ∉ l' →
      (some (String.mk (translateRunes l)) : Option String)
        = some (String.mk (translateRunes l')) → l = l' := by
    intro l l' h1 h2 h3 h1' h2' h3' he
    have e1 : translateRunes l = translateRunes l' :=
      congrArg String.toList (Option.some.inj he)
    have e2 := unescape_translateRunes l h1 h2 h3
    rw [e1, unescape_translateRunes l' h1' h2' h3'] at e2
    exact (Option.some.inj e2).symm
  refine ⟨?_, ?_, ?_, ?_, ?_, ?_⟩
  · intro b h1 h2 h3
    obtain ⟨p1, p2, p3⟩ := plain b h1 h2 h3
    exact ⟨_, glob2regexBytes_eq b, unescape_translateRunes (runes b) p1 p2 p3⟩
  · intro b hv h1 h2 h3
    obtain ⟨p1, p2, p3⟩ := plain b h1 h2 h3
    refine ⟨_, glob2regexBytes_eq b, ?_⟩
    have := unescape_translateRunes (runes b) p1 p2 p3
    show (unescape (translateRunes (runes b))).map utf8 = some b
    rw [this, Option.map_some', hv]
  · intro b b' hv hv' h1 h2 h3 h1' h2' h3' he
    obtain ⟨p1, p2, p3⟩ := plain b h1 h2 h3
    obtain ⟨q1, q2, q3⟩ := plain b' h1' h2' h3'
    rw [glob2regexBytes_eq, glob2regexBytes_eq] at he
    have := inj _ _ p1 p2 p3 q1 q2 q3 he
    rw [← hv, ← hv', this]
  · intro g
    exact ⟨by rw [runes_utf8], glob2regexBytes_utf8 g⟩
  · intro g h1 h2 h3
    exact ⟨_, glob2regex_eq g, unescape_translateRunes g.toList h1 h2 h3⟩
  · intro g g' h1 h2 h3 h1' h2' h3' he
    rw [glob2regex_eq, glob2regex_eq] at he
    exact String.ext (inj _ _ h1 h2 h3 h1' h2' h3' he)

theorem escaping_reversible_witness :
    (utf8 (runes [0x61, 0x2E, 0xC3, 0xA9, 0x5C]) = [0x61, 0x2E, 0xC3, 0xA9, 0x5C] ∧
      0x3F ∉ ([0x61, 0x2E, 0xC3, 0xA9, 0x5C] : List UInt8) ∧
      0x2A ∉ ([0x61, 0x2E, 0xC3, 0xA9, 0x5C] : List UInt8) ∧
      0x5B ∉ ([0x61, 0x2E, 0xC3, 0xA9, 0x5C] : List UInt8)) ∧
    ∃ r, glob2regexBytes [0x61, 0x2E, 0xC3, 0xA9, 0x5C] = some r ∧
      (unescape r.toList).map utf8 = some [0x61, 0x2E, 0xC3, 0xA9, 0x5C] :=
  ⟨⟨by decide, by decide, by decide, by decide⟩,
    escaping_reversible.2.1 [0x61, 0x2E, 0xC3, 0xA9, 0x5C]
      (by decide) (by decide) (by decide) (by decide)⟩

/-- C20: when the match predicate is false on every argument, as it is for an
empty pattern list, reject-list mode forwards the argument list as it is and skips
nothing, and accept-list mode forwards exactly the `--` tokens and the flag-like
tokens (those that begin with `-`, other than `-`) that stand before the first
`--`, and skips everything else. -/
theorem nothing_matches :
    (∀ (m : String → Bool) (args : List String), (∀ a ∈ args, m a = false) →
      ((blacklist m args).fnames = args ∧ (blacklist m args).skipped = []) ∧
      ((whitelist m args).fnames
          = (beforeSeparator args).filter isFlag
            ++ (fromSeparator args).filter (fun a => a == "--") ∧
        (whitelist m args).skipped
          = (beforeSeparator args).filter (fun a => !isFlag a)
            ++ (fromSeparator args).filter (fun a => a != "--"))) ∧
    (∀ args : List String,
      (blacklist (matchAny []) args).fnames = args ∧
      (blacklist (matchAny []) args).skipped = []) := by
  have key : ∀ (m : String → Bool) (args : List String), (∀ a ∈ args, m a = false) →
      ((blacklist m args).fnames = args ∧ (blacklist m args).skipped = []) ∧
      ((whitelist m args).fnames
          = (beforeSeparator args).filter isFlag
            ++ (fromSeparator args).filter (fun a => a == "--") ∧
        (whitelist m args).skipped
          = (beforeSeparator args).filter (fun a => !isFlag a)
            ++ (fromSeparator args).filter (fun a => a != "--")) := by
    intro m args hm
    have hb : ∀ a ∈ beforeSeparator args, m a = false := fun a ha =>
      hm a (by rw [← before_append_from args]; exact List.mem_append_left _ ha)
    have hf : ∀ a ∈ fromSeparator args, m a = false := fun a ha =>
      hm a (by rw [← before_append_from args]; exact List.mem_append_right _ ha)
    obtain ⟨b1, b2⟩ := blacklist_split m args
    obtain ⟨w1, w2⟩ := whitelist_split m args
    refine ⟨⟨?_, ?_⟩, ?_, ?_⟩
    · rw [b1, filter_eq_of_false m _ _ (fun _ => true) hb (fun a h => by simp [h]),
        filter_eq_of_false m _ _ (fun _ => true) hf (fun a h => by simp [h])]
      simp [before_append_from]
    · rw [b2, filter_eq_of_false m _ _ (fun _ => false) hb (fun a h => by simp [h]),
        filter_eq_of_false m _ _ (fun _ => false) hf (fun a h => by simp [h])]
      simp
    · rw [w1, filter_eq_of_false m _ _ isFlag hb (fun a h => by simp [h]),
        filter_eq_of_false m _ _ (fun a => a == "--") hf (fun a h => by simp [h])]
    · rw [w2, filter_eq_of_false m _ _ (fun a => !isFlag a) hb (fun a h => by simp [h]),
        filter_eq_of_false m _ _ (fun a => a != "--") hf (fun a h => by simp [h])]
  exact ⟨key, fun args => (key (matchAny []) args (fun _ _ => rfl)).1⟩

theorem nothing_matches_witness :
    (∀ a ∈ ["-v", "x", "-", "--", "-v", "--", "y"], (fun s : String => s == "z") a = false) ∧
    (blacklist (fun s => s == "z") ["-v", "x", "-", "--", "-v", "--", "y"]).fnames
      = ["-v", "x", "-", "--", "-v", "--", "y"] ∧
    (whitelist (fun s => s == "z") ["-v", "x", "-", "--", "-v", "--", "y"]).fnames
      = ["-v", "--", "--"] ∧
    (whitelist (fun s => s == "z") ["-v", "x", "-", "--", "-v", "--", "y"]).skipped
      = ["x", "-", "-v", "y"] :=
  ⟨by decide,
    (nothing_matches.1 (fun s => s == "z") ["-v", "x", "-", "--", "-v", "--", "y"]
      (by decide)).1.1,
    by decide, by decide⟩

end SkipRm
